import Mathlib

/-!
Verification of the BigData Lab4 search/PageRank system against its
natural-language specification.  The definitions below are a shallow
embedding of the Python sources (`pagerank_pregel.py`,
`pagerank_mapreduce.py`, `search_engine.py`, `utils.py`, `parser.py`,
`database.py`).  Machine floats are modelled by exact rationals (for the
PageRank engines) and by real numbers (for the TF-IDF scoring, whose
`math.log` is modelled by `Real.log`).  Documents are identified by their
index in the document table; the `id_to_index` translation of the sources
is the identity here.
-/

set_option maxRecDepth 20000

namespace BigData

/-! ## PageRank, Pregel engine (`pagerank_pregel.py`)

A graph is the list `outs` of outgoing-neighbour lists, one entry per
vertex (`SimplePregelGraph.vertices`); vertex `j`'s state is the pair of
`values[j]` (`PregelVertex.value`) and `active[j]` (`PregelVertex.active`).
-/

structure PregelState where
  values : List ℚ
  active : List Bool
deriving Repr, DecidableEq

/-- Messages produced by phase 1 of `SimplePregelGraph.run_superstep`:
every *active* vertex with a non-empty edge list emits one pair
`(target, value/outdegree)` per outgoing edge (`PregelVertex.send_messages`). -/
def sendAll (outs : List (List ℕ)) (s : PregelState) : List (ℕ × ℚ) :=
  (List.range outs.length).flatMap (fun j =>
    if s.active.getD j false then
      if outs.getD j [] = [] then []
      else (outs.getD j []).map
        (fun t => (t, s.values.getD j 0 / (((outs.getD j []).length : ℚ))))
    else [])

/-- Sum of the message values addressed to vertex `i` (the per-target list
of `self.messages` summed up; grouping a list by key and summing is the
same as summing the filtered list). -/
def incomingSum (msgs : List (ℕ × ℚ)) (i : ℕ) : ℚ :=
  ((msgs.filter (fun p => p.1 == i)).map Prod.snd).sum

/-- One superstep (`SimplePregelGraph.run_superstep`): all sends happen
first, then every vertex recomputes its value as
`(1-d)/N + d * incoming_sum` and is active exactly when its value moved
by more than `1e-10`. -/
def runSuperstep (outs : List (List ℕ)) (d : ℚ) (s : PregelState) : PregelState :=
  let n := outs.length
  let msgs := sendAll outs s
  let newVals := (List.range n).map (fun i => (1 - d) / (n : ℚ) + d * incomingSum msgs i)
  { values := newVals
    active := (List.range n).map (fun i =>
      decide ((1 : ℚ)/10^10 < |newVals.getD i 0 - s.values.getD i 0|)) }

/-- Initial state (`initialize_pagerank`): every vertex holds `1/N` and is
active. -/
def pregelInit (n : ℕ) : PregelState :=
  { values := List.replicate n (1 / (n : ℚ)), active := List.replicate n true }

/-- The superstep loop of `PageRankPregel.calculate`: run a superstep,
stop as soon as no vertex is active or the iteration budget is spent. -/
def pregelLoop (outs : List (List ℕ)) (d : ℚ) : ℕ → PregelState → PregelState
  | 0, s => s
  | fuel + 1, s =>
    let s' := runSuperstep outs d s
    if s'.active.any id then pregelLoop outs d fuel s' else s'

/-- `PageRankPregel.calculate`: empty corpus short-circuits to an empty
score mapping, otherwise run up to `maxIter` supersteps from the uniform
start. -/
def pregelCalculate (outs : List (List ℕ)) (d : ℚ) (maxIter : ℕ) : List ℚ :=
  if outs.length = 0 then []
  else (pregelLoop outs d maxIter (pregelInit outs.length)).values

/-! ## PageRank, MapReduce engine (`pagerank_mapreduce.py`) -/

/-- `PageRankMapReduce.map_phase`: a document with rank `r` and a
non-empty outgoing list contributes `(target, r/outdegree)` per link. -/
def mapPhase (outs : List (List ℕ)) (j : ℕ) (rank : ℚ) : List (ℕ × ℚ) :=
  if outs.getD j [] = [] then []
  else (outs.getD j []).map (fun t => (t, rank / (((outs.getD j []).length : ℚ))))

/-- One iteration (`calculate_pagerank_iteration`): map over every
document, reduce by target (`reduce_phase`, i.e. `incomingSum`), then
apply `(1-d)/N + d * incoming` to every document. -/
def mapReduceIteration (outs : List (List ℕ)) (d : ℚ) (cur : List ℚ) : List ℚ :=
  let contributions := (List.range outs.length).flatMap (fun j => mapPhase outs j (cur.getD j 0))
  (List.range outs.length).map (fun i =>
    (1 - d) / (outs.length : ℚ) + d * incomingSum contributions i)

/-- The square of `calculate_convergence` (the code compares
`sqrt(total/N)` with the tolerance; both sides being nonnegative this is
the comparison of `total/N` with the squared tolerance).  The division by
`N` is the one that raises `ZeroDivisionError` on an empty corpus. -/
def convergenceSq (n : ℕ) (old new : List ℚ) : ℚ :=
  ((List.range n).map (fun i => (new.getD i 0 - old.getD i 0)^2)).sum / (n : ℚ)

/-- The iteration loop of `PageRankMapReduce.calculate`.  `none` models
the `ZeroDivisionError` that `calculate_convergence` raises when the
corpus is empty (`total_diff / self.num_documents` with
`num_documents = 0`). -/
def mapReduceLoop (outs : List (List ℕ)) (d tol : ℚ) : ℕ → List ℚ → Option (List ℚ)
  | 0, cur => some cur
  | fuel + 1, cur =>
    let next := mapReduceIteration outs d cur
    if outs.length = 0 then none
    else if convergenceSq outs.length cur next < tol^2 then some next
    else mapReduceLoop outs d tol fuel next

/-- `PageRankMapReduce.calculate`: start from the uniform vector and
iterate at most `maxIter` times. -/
def mapReduceCalculate (outs : List (List ℕ)) (d tol : ℚ) (maxIter : ℕ) : Option (List ℚ) :=
  mapReduceLoop outs d tol maxIter (List.replicate outs.length (1 / (outs.length : ℚ)))

/-! ## Text utilities (`utils.py`)

Python strings are sequences of code points, modelled as `List Char`.
The regex character classes `\w` and `\s` and `str.lower` are modelled on
the ASCII range (the corpus and all spec examples are ASCII). -/

/-- Python regex class `\s` (ASCII): space, tab, linefeed, carriage
return, vertical tab, form feed. -/
def isSpaceChar (c : Char) : Bool :=
  decide (c.toNat = 32 ∨ c.toNat = 9 ∨ c.toNat = 10 ∨ c.toNat = 13
    ∨ c.toNat = 11 ∨ c.toNat = 12)

/-- Python regex class `\w` (ASCII): letters, digits and underscore. -/
def isWordChar (c : Char) : Bool :=
  decide ((97 ≤ c.toNat ∧ c.toNat ≤ 122) ∨ (65 ≤ c.toNat ∧ c.toNat ≤ 90)
    ∨ (48 ≤ c.toNat ∧ c.toNat ≤ 57) ∨ c.toNat = 95)

/-- Python `str.lower` on the ASCII range: map `A..Z` to `a..z`. -/
def pyLower (c : Char) : Char :=
  if 65 ≤ c.toNat ∧ c.toNat ≤ 90 then Char.ofNat (c.toNat + 32) else c

/-- One left-to-right pass of `re.sub(r'<[^>]+>', ' ', text)`: a `<`
followed by at least one non-`>` character and a closing `>` is replaced
by a single space, scanning resumes after the match; any other character
is kept and scanning moves one position right.  The fuel bounds the
number of scanning steps; the wrapper passes the text length, which
suffices because every step consumes at least one character. -/
def stripTagsFuel : ℕ → List Char → List Char
  | 0, l => l
  | _ + 1, [] => []
  | fuel + 1, c :: rest =>
    if c = '<' then
      match rest.dropWhile (fun x => x ≠ '>') with
      | '>' :: after =>
        if rest.takeWhile (fun x => x ≠ '>') = [] then c :: stripTagsFuel fuel rest
        else ' ' :: stripTagsFuel fuel after
      | _ => c :: stripTagsFuel fuel rest
    else c :: stripTagsFuel fuel rest

def stripTags (l : List Char) : List Char := stripTagsFuel l.length l

/-- `re.sub(r'[^\w\s]', ' ', text)`: every character that is neither a
word character nor whitespace becomes a space. -/
def substPunct (l : List Char) : List Char :=
  l.map (fun c => if isWordChar c || isSpaceChar c then c else ' ')

/-- `re.sub(r'\s+', ' ', text)`: each maximal whitespace run becomes one
space. -/
def collapseWs : List Char → List Char
  | [] => []
  | c :: rest =>
    if isSpaceChar c then
      match rest with
      | d :: _ => if isSpaceChar d then collapseWs rest else ' ' :: collapseWs rest
      | [] => [' ']
    else c :: collapseWs rest

/-- Python `str.strip()`: drop leading and trailing whitespace. -/
def stripWs (l : List Char) : List Char :=
  ((l.dropWhile isSpaceChar).reverse.dropWhile isSpaceChar).reverse

/-- `clean_text`: strip HTML-like tags, blank out punctuation, collapse
whitespace runs, strip, lowercase. -/
def cleanText (l : List Char) : List Char :=
  (stripWs (collapseWs (substPunct (stripTags l)))).map pyLower

/-- Python `str.split()` (no separator): split on whitespace runs,
producing no empty tokens.  The accumulator holds the current token in
reverse. -/
def splitWsAux : List Char → List Char → List (List Char)
  | [], acc => if acc = [] then [] else [acc.reverse]
  | c :: rest, acc =>
    if isSpaceChar c then
      if acc = [] then splitWsAux rest []
      else acc.reverse :: splitWsAux rest []
    else splitWsAux rest (c :: acc)

def splitWs (l : List Char) : List (List Char) := splitWsAux l []

/-- `tokenize`: clean the text, split on whitespace, drop stop words. -/
def tokenize (text : List Char) (stop : List (List Char)) : List (List Char) :=
  (splitWs (cleanText text)).filter (fun t => decide (t ∉ stop))

/-- `" ".join(tokens)` for re-feeding a token list to `tokenize`. -/
def joinSpace : List (List Char) → List Char
  | [] => []
  | [t] => t
  | t :: ts => t ++ ' ' :: joinSpace ts

/-- The configured `STOP_WORDS` set of `config.py`. -/
def stopWords : List (List Char) :=
  (["a", "an", "the", "and", "or", "but", "in", "on", "at", "to", "for",
    "of", "with", "by", "is", "are", "was", "were", "be", "been", "being",
    "have", "has", "had", "do", "does", "did", "will", "would", "shall",
    "should", "may", "might", "must", "can", "could", "i", "you", "he",
    "she", "it", "we", "they", "me", "him", "her", "us", "them", "this",
    "that", "these", "those", "am"]).map String.toList

/-! ## Snippet generation (`generate_snippet` in `utils.py`) -/

/-- Does `sub` occur in `text` at position `i` (and fit inside it)? -/
def matchesAt (sub text : List Char) (i : ℕ) : Bool :=
  decide (i ≤ text.length) && decide ((text.drop i).take sub.length = sub)

/-- Python `text.find(sub, k)`: the least position `≥ k` where `sub`
occurs (positions `k, k+1, ...` up to the text length are scanned in
order), or `none`. -/
def pyFindAux (sub text : List Char) : ℕ → ℕ → Option ℕ
  | 0, _ => none
  | fuel + 1, i => if matchesAt sub text i then some i else pyFindAux sub text fuel (i + 1)

def pyFind (sub text : List Char) (k : ℕ) : Option ℕ :=
  pyFindAux sub text (text.length + 1 - k) k

/-- The `while True` find loop of `generate_snippet`: collect the
`(pos, pos + len(term))` pairs of every occurrence, restarting the search
at `pos + 1`. -/
def findPositionsFuel (sub text : List Char) : ℕ → ℕ → List (ℕ × ℕ)
  | 0, _ => []
  | fuel + 1, start =>
    match pyFind sub text start with
    | none => []
    | some p => (p, p + sub.length) :: findPositionsFuel sub text fuel (p + 1)

def findPositions (sub text : List Char) : List (ℕ × ℕ) :=
  findPositionsFuel sub text (text.length + 1) 0

/-- All `(pos, pos + len(term))` occurrence pairs over all query terms,
searched case-insensitively (both sides lowered). -/
def snippetPositions (text : List Char) (queryTerms : List (List Char)) : List (ℕ × ℕ) :=
  queryTerms.flatMap (fun term => findPositions (term.map pyLower) (text.map pyLower))

/-- `min(positions, key=lambda x: x[0])[0]`: the least first component. -/
def firstTermPos (text : List Char) (queryTerms : List (List Char)) : ℕ :=
  (((snippetPositions text queryTerms).map Prod.fst).min?).getD 0

/-- The window `text[start:end]` with its ellipsis markers, where
`start = max(0, firstPos - maxLength//2)` (natural subtraction) and
`end = min(len(text), start + maxLength)`. -/
def snippetWindow (text : List Char) (firstPos maxLength : ℕ) : List Char :=
  (if 0 < firstPos - maxLength / 2 then ['.', '.', '.'] else [])
    ++ ((text.drop (firstPos - maxLength / 2)).take
        (min text.length ((firstPos - maxLength / 2) + maxLength) - (firstPos - maxLength / 2)))
    ++ (if min text.length ((firstPos - maxLength / 2) + maxLength) < text.length
        then ['.', '.', '.'] else [])

/-- `generate_snippet(text, query_terms, max_length)`. -/
def generateSnippet (text : List Char) (queryTerms : List (List Char)) (maxLength : ℕ) :
    List Char :=
  if text = [] then []
  else if snippetPositions text queryTerms = [] then
    (if maxLength < text.length then text.take maxLength ++ ['.', '.', '.'] else text)
  else snippetWindow text (firstTermPos text queryTerms) maxLength

/-! ## Storage model for the index build (`database.py`, `parser.py`)

The SQLite tables are modelled as association lists in row order;
`AUTOINCREMENT` ids start at `1`. -/

structure IndexDB where
  docs : List (ℕ × String × String × String)
  nextDocId : ℕ
  words : List (ℕ × List Char × ℕ)
  nextWordId : ℕ
  inv : List ((ℕ × ℕ) × ℚ × List ℕ)
  pageLinks : List (ℕ × String × Option ℕ)
deriving Repr

def emptyDB : IndexDB := ⟨[], 1, [], 1, [], []⟩

/-- `Database.get_document_id`. -/
def lookupDocId (db : IndexDB) (url : String) : Option ℕ :=
  (db.docs.find? (fun r => r.2.1 == url)).map (fun r => r.1)

/-- `Database.add_document`: insert-or-ignore on the unique `url`, then
update title/content of the row with that url, returning its id. -/
def addDocument (db : IndexDB) (url title content : String) : ℕ × IndexDB :=
  match db.docs.find? (fun r => r.2.1 == url) with
  | some r =>
    (r.1, { db with
      docs := db.docs.map (fun q => if q.1 = r.1 then (q.1, url, title, content) else q) })
  | none =>
    (db.nextDocId, { db with
      docs := db.docs ++ [(db.nextDocId, url, title, content)]
      nextDocId := db.nextDocId + 1 })

/-- `Database.add_word`: look the word up; bump its corpus-wide frequency
if present, insert it with frequency `1` otherwise; return its id. -/
def addWord (db : IndexDB) (w : List Char) : ℕ × IndexDB :=
  match db.words.find? (fun r => r.2.1 == w) with
  | some r =>
    (r.1, { db with
      words := db.words.map (fun q => if q.1 = r.1 then (q.1, q.2.1, q.2.2 + 1) else q) })
  | none =>
    (db.nextWordId, { db with
      words := db.words ++ [(db.nextWordId, w, 1)]
      nextWordId := db.nextWordId + 1 })

/-- `Database.add_inverted_index_entry`: `INSERT OR REPLACE` keyed on
`(word_id, doc_id)`. -/
def addInvertedIndexEntry (db : IndexDB) (wordId docId : ℕ) (tf : ℚ)
    (positions : List ℕ) : IndexDB :=
  { db with
    inv := (db.inv.filter (fun e => !(e.1.1 == wordId && e.1.2 == docId)))
      ++ [((wordId, docId), tf, positions)] }

/-- `Database.add_link`: `INSERT OR IGNORE` keyed on
`(source_doc_id, target_url)`. -/
def addLink (db : IndexDB) (src : ℕ) (targetUrl : String) (targetId : Option ℕ) : IndexDB :=
  if (db.pageLinks.find? (fun r => r.1 == src && r.2.1 == targetUrl)).isSome then db
  else { db with pageLinks := db.pageLinks ++ [(src, targetUrl, targetId)] }

def indexLinks (db : IndexDB) (docId : ℕ) (links : List String) : IndexDB :=
  links.foldl (fun db link => addLink db docId link (lookupDocId db link)) db

/-- `WebParser.index_document`: add/refresh the document row, tokenize
the new content, and for every distinct term of the new content add the
word and upsert its posting with the absolute occurrence count as `tf`
and the zero-based token positions; finally record the outgoing links.
Postings of the document for terms not occurring in the new content are
left untouched. -/
def indexDocument (db : IndexDB) (url title content : String) (links : List String) :
    IndexDB :=
  match addDocument db url title content with
  | (docId, db1) =>
    if tokenize content.toList stopWords = [] then indexLinks db1 docId links
    else
      indexLinks
        ((tokenize content.toList stopWords).eraseDups.foldl (fun db w =>
          match addWord db w with
          | (wordId, db') =>
            addInvertedIndexEntry db' wordId docId
              (((tokenize content.toList stopWords).count w : ℚ))
              (((tokenize content.toList stopWords).enum.filter
                  (fun p => p.2 == w)).map Prod.fst)) db1)
        docId links

/-- `Database.get_documents_for_word` restricted to one document: a
posting for `(term, doc)` is visible iff the word row exists and the
inverted-index row `(word_id, doc_id)` exists. -/
def postingExists (db : IndexDB) (w : List Char) (docId : ℕ) : Bool :=
  match (db.words.find? (fun r => r.2.1 == w)).map (fun r => r.1) with
  | none => false
  | some wid => (db.inv.find? (fun e => e.1.1 == wid && e.1.2 == docId)).isSome

/-! ## Query engine (`search_engine.py`)

The storage collaborator is abstracted to its read interface: the
document list in `get_all_documents` order with each document's content,
the posting lookup `get_documents_for_word` (whose stored `tf` is the
absolute occurrence count, see `parser.index_document`), and the
pagerank table.  Scores are real numbers and `math.log` is `Real.log`. -/

structure Corpus where
  docs : List (ℕ × List Char)
  index : List Char → List (ℕ × ℝ)
  pageranks : List (ℕ × ℝ)

/-- Python `int(...)` truncates toward zero. -/
noncomputable def pyTrunc (x : ℝ) : ℤ := if x < 0 then -⌊-x⌋ else ⌊x⌋

/-- `SearchEngine.calculate_idf` with its per-instance cache: return the
cached value when present; otherwise compute
`ln((N + 1)/(df + 1)) + 1` (or `0` when `df = 0`) and cache it. -/
noncomputable def calculateIdf (c : Corpus) (cache : List (List Char × ℝ)) (w : List Char) :
    ℝ × List (List Char × ℝ) :=
  match cache.lookup w with
  | some v => (v, cache)
  | none =>
    if (c.index w).length = 0 then (0, (w, 0) :: cache)
    else (Real.log (((c.docs.length : ℝ) + 1) / (((c.index w).length : ℝ) + 1)) + 1,
      (w, Real.log (((c.docs.length : ℝ) + 1) / (((c.index w).length : ℝ) + 1)) + 1) :: cache)

/-- `SearchEngine.calculate_tf`. -/
noncomputable def calculateTf (termCount : ℤ) (totalTerms : ℕ) : ℝ :=
  if totalTerms = 0 then 0 else (termCount : ℝ) / (totalTerms : ℝ)

/-- The `doc_lengths` map of `search_term_at_a_time`: token count of
every document with non-empty content. -/
def docLengths (c : Corpus) : List (ℕ × ℕ) :=
  c.docs.filterMap (fun r =>
    if r.2 = [] then none else some (r.1, (tokenize r.2 stopWords).length))

/-- `scores[doc_id] += x` on a `defaultdict(float)`: update in place or
append a fresh key at the end. -/
noncomputable def bumpScore : List (ℕ × ℝ) → ℕ → ℝ → List (ℕ × ℝ)
  | [], d, x => [(d, x)]
  | (k, v) :: rest, d, x =>
    if k = d then (k, v + x) :: rest else (k, v) :: bumpScore rest d x

/-- The inner loop of `search_term_at_a_time` over the documents carrying
one term: skip documents without a recorded length, reconstruct the count
as `int(raw_tf * doc_length)`, normalize, and accumulate `tf * idf`. -/
noncomputable def termDocsLoop (dls : List (ℕ × ℕ)) (idf : ℝ) (dwt : List (ℕ × ℝ))
    (scores : List (ℕ × ℝ)) : List (ℕ × ℝ) :=
  dwt.foldl (fun scores p =>
    match dls.lookup p.1 with
    | none => scores
    | some dl =>
      if dl = 0 then scores
      else bumpScore scores p.1 (calculateTf (pyTrunc (p.2 * (dl : ℝ))) dl * idf)) scores

/-- The outer loop of `search_term_at_a_time` over the query terms:
fetch the term's postings, compute (and cache) its idf, skip the term
when the idf is zero. -/
noncomputable def termAtATimeScores (c : Corpus) :
    List (List Char) → List (ℕ × ℝ) → List (List Char × ℝ)
      → List (ℕ × ℝ) × List (List Char × ℝ)
  | [], scores, cache => (scores, cache)
  | term :: rest, scores, cache =>
    match calculateIdf c cache term with
    | (idf, cache') =>
      if idf = 0 then termAtATimeScores c rest scores cache'
      else termAtATimeScores c rest (termDocsLoop (docLengths c) idf (c.index term) scores)
        cache'

/-- Python `max` over a non-empty list (`0` on `[]`, never used there). -/
noncomputable def pyMax : List ℝ → ℝ
  | [] => 0
  | x :: xs => xs.foldl max x

/-- The pagerank application shared by both strategies: normalize by the
maximum score when it is positive, then multiply each score by
`1 + pagerank` with absent pageranks defaulting to `1.0`. -/
noncomputable def applyPagerank (c : Corpus) (scores : List (ℕ × ℝ)) : List (ℕ × ℝ) :=
  (if 0 < pyMax (scores.map Prod.snd)
    then scores.map (fun p => (p.1, p.2 / pyMax (scores.map Prod.snd)))
    else scores).map
      (fun p => (p.1, p.2 * (1 + ((c.pageranks.lookup p.1).getD 1))))

/-- `sorted(..., key=lambda x: x[1], reverse=True)`: stable descending
sort by score. -/
noncomputable def sortScoresDesc (l : List (ℕ × ℝ)) : List (ℕ × ℝ) :=
  l.mergeSort (fun a b => decide (b.2 ≤ a.2))

/-- The result formatting shared by both strategies: top ten scores, keep
documents with non-empty content, attach a snippet. -/
noncomputable def formatResults (c : Corpus) (sorted : List (ℕ × ℝ))
    (queryTerms : List (List Char)) : List (ℕ × ℝ × List Char) :=
  (sorted.take 10).filterMap (fun p =>
    match c.docs.find? (fun r => r.1 == p.1) with
    | none => none
    | some r =>
      if r.2 = [] then none
      else some (p.1, p.2, generateSnippet r.2 queryTerms 150))

/-- `SearchEngine.search_term_at_a_time`. -/
noncomputable def searchTermAtATime (c : Corpus) (query : List Char) (usePagerank : Bool)
    (cache : List (List Char × ℝ)) : List (ℕ × ℝ × List Char) × List (List Char × ℝ) :=
  if tokenize query stopWords = [] then ([], cache)
  else
    match termAtATimeScores c (tokenize query stopWords) [] cache with
    | (scores, cache') =>
      (formatResults c
        (sortScoresDesc (if usePagerank && !scores.isEmpty then applyPagerank c scores
          else scores))
        (tokenize query stopWords), cache')

/-- The `term_idf` precomputation of `search_document_at_a_time`. -/
noncomputable def buildTermIdf (c : Corpus) :
    List (List Char) → List (List Char × ℝ)
      → List (List Char × ℝ) × List (List Char × ℝ)
  | [], cache => ([], cache)
  | term :: rest, cache =>
    match calculateIdf c cache term with
    | (idf, cache') =>
      match buildTermIdf c rest cache' with
      | (assoc, cache'') => ((term, idf) :: assoc, cache'')

/-- The per-document score of `search_document_at_a_time`: sum `tf * idf`
over the query terms with non-zero idf that occur in the document. -/
noncomputable def docScore (tokens : List (List Char)) (total : ℕ)
    (termIdf : List (List Char × ℝ)) (qts : List (List Char)) : ℝ :=
  qts.foldl (fun acc term =>
    if (termIdf.lookup term).getD 0 = 0 then acc
    else if 0 < tokens.count term then
      acc + calculateTf (tokens.count term : ℤ) total * (termIdf.lookup term).getD 0
    else acc) 0

/-- The document loop of `search_document_at_a_time`: skip documents with
empty content or no tokens, record a document exactly when its score is
positive. -/
noncomputable def docAtATimeScores (c : Corpus) (qts : List (List Char))
    (termIdf : List (List Char × ℝ)) : List (ℕ × ℝ) :=
  c.docs.foldl (fun scores r =>
    if r.2 = [] then scores
    else if (tokenize r.2 stopWords).length = 0 then scores
    else if 0 < docScore (tokenize r.2 stopWords) (tokenize r.2 stopWords).length termIdf qts
      then scores ++ [(r.1, docScore (tokenize r.2 stopWords)
        (tokenize r.2 stopWords).length termIdf qts)]
    else scores) []

/-- `SearchEngine.search_document_at_a_time`. -/
noncomputable def searchDocAtATime (c : Corpus) (query : List Char) (usePagerank : Bool)
    (cache : List (List Char × ℝ)) : List (ℕ × ℝ × List Char) × List (List Char × ℝ) :=
  if tokenize query stopWords = [] then ([], cache)
  else
    match buildTermIdf c (tokenize query stopWords) cache with
    | (termIdf, cache') =>
      (formatResults c
        (sortScoresDesc
          (if usePagerank && !(docAtATimeScores c (tokenize query stopWords) termIdf).isEmpty
            then applyPagerank c (docAtATimeScores c (tokenize query stopWords) termIdf)
            else docAtATimeScores c (tokenize query stopWords) termIdf))
        (tokenize query stopWords), cache')

/-- `SearchEngine.search`: dispatch on the lowercased method name,
falling back to term-at-a-time for unknown names. -/
noncomputable def search (c : Corpus) (query : List Char) (method : List Char)
    (usePagerank : Bool) (cache : List (List Char × ℝ)) :
    List (ℕ × ℝ × List Char) × List (List Char × ℝ) :=
  if method.map pyLower = "term".toList then searchTermAtATime c query usePagerank cache
  else if method.map pyLower = "document".toList then searchDocAtATime c query usePagerank cache
  else searchTermAtATime c query usePagerank cache

/-! ### The idf cache (C7) -/

/-- The cache-free value `calculate_idf` computes for a term. -/
noncomputable def idfValue (c : Corpus) (w : List Char) : ℝ :=
  if (c.index w).length = 0 then 0
  else Real.log (((c.docs.length : ℝ) + 1) / (((c.index w).length : ℝ) + 1)) + 1

/-- Every cached value is the one the formula produces — the invariant of
the per-instance cache. -/
def validCache (c : Corpus) (cache : List (List Char × ℝ)) : Prop :=
  ∀ p ∈ cache, p.2 = idfValue c p.1

/-- A corpus is storage-consistent when no term's document frequency
exceeds the number of documents. -/
def dfBounded (c : Corpus) (qts : List (List Char)) : Prop :=
  ∀ t ∈ qts, (c.index t).length ≤ c.docs.length

/-- The cache-free rendering of the term-at-a-time score loop. -/
noncomputable def termAtATimeScoresSpec (c : Corpus) :
    List (List Char) → List (ℕ × ℝ) → List (ℕ × ℝ)
  | [], scores => scores
  | term :: rest, scores =>
    if idfValue c term = 0 then termAtATimeScoresSpec c rest scores
    else termAtATimeScoresSpec c rest
      (termDocsLoop (docLengths c) (idfValue c term) (c.index term) scores)

/-- The cache-free per-document score of the document-at-a-time loop. -/
noncomputable def docScoreSpec (c : Corpus) (tokens : List (List Char)) (total : ℕ)
    (qts : List (List Char)) : ℝ :=
  qts.foldl (fun acc term =>
    if idfValue c term = 0 then acc
    else if 0 < tokens.count term then
      acc + calculateTf (tokens.count term : ℤ) total * idfValue c term
    else acc) 0

/-- The one-document corpus used to compare the two strategies: document
`1` has content `"quick fox"` (two tokens) and the inverted index stores
the posting `(doc 1, count 1)` for the term `"quick"`. -/
noncomputable def corpusQF : Corpus :=
  ⟨[(1, "quick fox".toList)],
    fun t => if t = "quick".toList then [(1, 1)] else [],
    []⟩

end BigData

namespace BigData

/-! ### Unfolding lemmas for the iteration loops -/

theorem pregelLoop_moveOn (outs : List (List ℕ)) (d : ℚ) (fuel : ℕ) (s : PregelState)
    (h : (runSuperstep outs d s).active.any id = true) :
    pregelLoop outs d (fuel + 1) s = pregelLoop outs d fuel (runSuperstep outs d s) := by
  rw [pregelLoop]
  simp only [h, if_true]

theorem pregelLoop_stop (outs : List (List ℕ)) (d : ℚ) (fuel : ℕ) (s : PregelState)
    (h : (runSuperstep outs d s).active.any id = false) :
    pregelLoop outs d (fuel + 1) s = runSuperstep outs d s := by
  rw [pregelLoop]
  simp only [h, Bool.false_eq_true, if_false]

theorem mapReduceLoop_moveOn (outs : List (List ℕ)) (d tol : ℚ) (fuel : ℕ) (cur : List ℚ)
    (h0 : outs.length ≠ 0)
    (h : ¬ convergenceSq outs.length cur (mapReduceIteration outs d cur) < tol^2) :
    mapReduceLoop outs d tol (fuel + 1) cur
      = mapReduceLoop outs d tol fuel (mapReduceIteration outs d cur) := by
  rw [mapReduceLoop]
  simp only [h0, h, if_false]

theorem mapReduceLoop_stop (outs : List (List ℕ)) (d tol : ℚ) (fuel : ℕ) (cur : List ℚ)
    (h0 : outs.length ≠ 0)
    (h : convergenceSq outs.length cur (mapReduceIteration outs d cur) < tol^2) :
    mapReduceLoop outs d tol (fuel + 1) cur = some (mapReduceIteration outs d cur) := by
  rw [mapReduceLoop]
  simp only [h0, h, if_false, if_true]

/-- C1: the claim that the two engines always agree within the tolerance
fails on the code.  On the two-document graph with the single link
`doc0 → doc1`, with the configured damping `0.85`, tolerance `1e-6` and
cap `100`, the Pregel engine converges to `[3/40, 3/40]` (its vertex `0`
goes inactive and stops feeding `doc1`), while the MapReduce engine
converges to the true fixed point `[3/40, 111/800]`; the two scores of
`doc1` differ by `51/800 = 0.06375`, far above the tolerance. -/
theorem c1_engines_disagree_beyond_tolerance :
    pregelCalculate [[1], []] (17/20) 100 = [3/40, 3/40]
    ∧ mapReduceCalculate [[1], []] (17/20) (1/1000000) 100 = some [3/40, 111/800]
    ∧ ¬ |(pregelCalculate [[1], []] (17/20) 100).getD 1 0
          - ((mapReduceCalculate [[1], []] (17/20) (1/1000000) 100).getD []).getD 1 0|
        < 1/1000000 := by
  have h1 : runSuperstep [[1],[]] (17/20) ⟨[1/2, 1/2], [true, true]⟩
      = ⟨[3/40, 1/2], [true, false]⟩ := by
    norm_num [runSuperstep, sendAll, incomingSum, List.range_succ,
      decide_eq_true_eq, decide_eq_false_iff_not, abs_of_pos, abs_of_neg, abs_of_nonneg,
      abs_of_nonpos]
  have h2 : runSuperstep [[1],[]] (17/20) ⟨[3/40, 1/2], [true, false]⟩
      = ⟨[3/40, 111/800], [false, true]⟩ := by
    norm_num [runSuperstep, sendAll, incomingSum, List.range_succ,
      decide_eq_true_eq, decide_eq_false_iff_not, abs_of_pos, abs_of_neg, abs_of_nonneg,
      abs_of_nonpos]
  have h3 : runSuperstep [[1],[]] (17/20) ⟨[3/40, 111/800], [false, true]⟩
      = ⟨[3/40, 3/40], [false, true]⟩ := by
    norm_num [runSuperstep, sendAll, incomingSum, List.range_succ,
      decide_eq_true_eq, decide_eq_false_iff_not, abs_of_pos, abs_of_neg, abs_of_nonneg,
      abs_of_nonpos]
  have h4 : runSuperstep [[1],[]] (17/20) ⟨[3/40, 3/40], [false, true]⟩
      = ⟨[3/40, 3/40], [false, false]⟩ := by
    norm_num [runSuperstep, sendAll, incomingSum, List.range_succ,
      decide_eq_true_eq, decide_eq_false_iff_not, abs_of_pos, abs_of_neg, abs_of_nonneg,
      abs_of_nonpos]
  have hpregel : pregelCalculate [[1], []] (17/20) 100 = [3/40, 3/40] := by
    have t1 := pregelLoop_moveOn [[1],[]] (17/20) 99 ⟨[1/2, 1/2], [true, true]⟩
      (by rw [h1]; rfl)
    rw [h1] at t1
    have t2 := pregelLoop_moveOn [[1],[]] (17/20) 98 ⟨[3/40, 1/2], [true, false]⟩
      (by rw [h2]; rfl)
    rw [h2] at t2
    have t3 := pregelLoop_moveOn [[1],[]] (17/20) 97 ⟨[3/40, 111/800], [false, true]⟩
      (by rw [h3]; rfl)
    rw [h3] at t3
    have t4 := pregelLoop_stop [[1],[]] (17/20) 96 ⟨[3/40, 3/40], [false, true]⟩
      (by rw [h4]; rfl)
    rw [h4] at t4
    have hinit : pregelInit 2 = ⟨[1/2, 1/2], [true, true]⟩ := by
      norm_num [pregelInit, List.replicate]
    have hc : pregelCalculate [[1], []] (17/20) 100
        = (pregelLoop [[1],[]] (17/20) 100 ⟨[1/2, 1/2], [true, true]⟩).values := by
      norm_num [pregelCalculate, hinit]
    rw [hc, t1, t2, t3, t4]
  have hmr : mapReduceCalculate [[1], []] (17/20) (1/1000000) 100 = some [3/40, 111/800] := by
    have i1 : mapReduceIteration [[1],[]] (17/20) [1/2, 1/2] = [3/40, 1/2] := by
      norm_num [mapReduceIteration, mapPhase, incomingSum, List.range_succ]
    have i2 : mapReduceIteration [[1],[]] (17/20) [3/40, 1/2] = [3/40, 111/800] := by
      norm_num [mapReduceIteration, mapPhase, incomingSum, List.range_succ]
    have i3 : mapReduceIteration [[1],[]] (17/20) [3/40, 111/800] = [3/40, 111/800] := by
      norm_num [mapReduceIteration, mapPhase, incomingSum, List.range_succ]
    have t1 := mapReduceLoop_moveOn [[1],[]] (17/20) (1/1000000) 99 [1/2, 1/2]
      (by norm_num) (by rw [i1]; norm_num [convergenceSq, List.range_succ])
    rw [i1] at t1
    have t2 := mapReduceLoop_moveOn [[1],[]] (17/20) (1/1000000) 98 [3/40, 1/2]
      (by norm_num) (by rw [i2]; norm_num [convergenceSq, List.range_succ])
    rw [i2] at t2
    have t3 := mapReduceLoop_stop [[1],[]] (17/20) (1/1000000) 97 [3/40, 111/800]
      (by norm_num) (by rw [i3]; norm_num [convergenceSq, List.range_succ])
    rw [i3] at t3
    have hinit : mapReduceCalculate [[1],[]] (17/20) (1/1000000) 100
        = mapReduceLoop [[1],[]] (17/20) (1/1000000) 100 [1/2, 1/2] := by
      rw [mapReduceCalculate]
      norm_num [List.replicate]
    rw [hinit, t1, t2, t3]
  refine ⟨hpregel, hmr, ?_⟩
  rw [hpregel, hmr]
  norm_num [abs_of_pos, abs_of_neg, abs_of_nonneg, abs_of_nonpos]

/-- C5: on a zero-document corpus the Pregel engine indeed returns the
empty mapping without error, but the MapReduce engine's first call to
`calculate_convergence` divides `total_diff` by `num_documents = 0` and
raises `ZeroDivisionError` (modelled by `none`), so the claim that
neither engine errors fails. -/
theorem c5_empty_corpus_mapreduce_raises :
    pregelCalculate [] (17/20) 100 = []
    ∧ mapReduceCalculate [] (17/20) (1/1000000) 100 = none := by
  constructor
  · simp [pregelCalculate]
  · simp [mapReduceCalculate, mapReduceLoop, List.replicate]

/-! ### Mass accounting for one engine step (used for C3 and C4) -/

theorem sum_getD_range (l : List ℚ) :
    ∑ i ∈ Finset.range l.length, l.getD i 0 = l.sum := by
  induction l with
  | nil => simp
  | cons a t ih =>
    rw [List.length_cons, Finset.sum_range_succ']
    simp only [List.getD_cons_succ, List.getD_cons_zero, ih, List.sum_cons]
    ring

theorem incomingSum_nonneg (msgs : List (ℕ × ℚ)) (i : ℕ)
    (h : ∀ p ∈ msgs, 0 ≤ p.2) : 0 ≤ incomingSum msgs i := by
  unfold incomingSum
  apply List.sum_nonneg
  intro x hx
  obtain ⟨p, hp, rfl⟩ := List.mem_map.mp hx
  exact h p (List.mem_filter.mp hp).1

theorem sum_incomingSum (n : ℕ) (msgs : List (ℕ × ℚ)) (h : ∀ p ∈ msgs, p.1 < n) :
    ∑ i ∈ Finset.range n, incomingSum msgs i = (msgs.map Prod.snd).sum := by
  induction msgs with
  | nil => simp [incomingSum]
  | cons a t ih =>
    have ha : a.1 ∈ Finset.range n := Finset.mem_range.mpr (h a (List.mem_cons_self a t))
    have iht := ih (fun p hp => h p (List.mem_cons_of_mem _ hp))
    have hsplit : ∀ i, incomingSum (a :: t) i = (if a.1 = i then a.2 else 0) + incomingSum t i := by
      intro i
      by_cases hai : a.1 = i
      · simp [incomingSum, List.filter_cons, hai]
      · simp [incomingSum, List.filter_cons, hai]
    simp only [hsplit, Finset.sum_add_distrib, iht, Finset.sum_ite_eq, ha, if_true,
      List.map_cons, List.sum_cons]

theorem incomingSum_append (l1 l2 : List (ℕ × ℚ)) (i : ℕ) :
    incomingSum (l1 ++ l2) i = incomingSum l1 i + incomingSum l2 i := by
  simp [incomingSum, List.filter_append]

theorem incomingSum_flatMap_range (n : ℕ) (f : ℕ → List (ℕ × ℚ)) (i : ℕ) :
    incomingSum ((List.range n).flatMap f) i = ∑ j ∈ Finset.range n, incomingSum (f j) i := by
  induction n with
  | zero => simp [incomingSum]
  | succ m ih =>
    rw [List.range_succ, List.flatMap_append, incomingSum_append, ih, Finset.sum_range_succ]
    simp [incomingSum]

theorem incomingSum_shareList (os : List ℕ) (c : ℚ) (i : ℕ) :
    incomingSum (os.map (fun t => (t, c))) i = (os.count i : ℚ) * c := by
  induction os with
  | nil => simp [incomingSum]
  | cons t os' ih =>
    by_cases hti : t = i
    · subst hti
      simp only [List.map_cons, incomingSum, List.filter_cons] at ih ⊢
      simp only [beq_self_eq_true, if_true, List.map_cons, List.sum_cons, List.count_cons_self]
      push_cast
      rw [ih]
      ring
    · simp only [List.map_cons, incomingSum, List.filter_cons] at ih ⊢
      have hb : ((t, c).1 == i) = false := by simpa using hti
      simp only [hb, Bool.false_eq_true, if_false]
      rw [ih, List.count_cons]
      simp [hti]

theorem mass_flatMap_range (n : ℕ) (f : ℕ → List (ℕ × ℚ)) (m : ℕ → ℚ)
    (h : ∀ j, ((f j).map Prod.snd).sum = m j) :
    ((((List.range n).flatMap f)).map Prod.snd).sum = ∑ j ∈ Finset.range n, m j := by
  induction n with
  | zero => simp
  | succ k ih =>
    rw [List.range_succ, List.flatMap_append, List.map_append, List.sum_append, ih,
      Finset.sum_range_succ]
    simp [h k]

theorem sum_map_constQ (os : List ℕ) (c : ℚ) : (os.map (fun _ => c)).sum = os.length * c := by
  induction os with
  | nil => simp
  | cons a t ih =>
    simp only [List.map_cons, List.sum_cons, ih, List.length_cons]
    push_cast
    ring

theorem sum_map_rangeQ (n : ℕ) (g : ℕ → ℚ) :
    ((List.range n).map g).sum = ∑ i ∈ Finset.range n, g i := by
  induction n with
  | zero => simp
  | succ m ih =>
    rw [List.range_succ, List.map_append, List.sum_append, ih, Finset.sum_range_succ]
    simp

/-- Shared accounting for one update pass of either engine: from messages
whose targets are in range, whose values are nonnegative, and whose total
mass is the sum of the current values of the contributing vertices, the
freshly mapped value list is positive, sums to at most `1`, and sums to
exactly `1` only if every vertex has an outgoing edge. -/
theorem step_core (outs : List (List ℕ)) (d : ℚ) (vals : List ℚ) (msgs : List (ℕ × ℚ))
    (P : ℕ → Prop) [DecidablePred P]
    (hn : outs.length ≠ 0) (hd0 : 0 < d) (hd1 : d < 1)
    (hlen : vals.length = outs.length)
    (hpos : ∀ x ∈ vals, 0 < x) (hsum : vals.sum ≤ 1)
    (htgt : ∀ p ∈ msgs, p.1 < outs.length) (hnn : ∀ p ∈ msgs, 0 ≤ p.2)
    (hmass : (msgs.map Prod.snd).sum
      = ∑ j ∈ Finset.range outs.length, if P j then vals.getD j 0 else 0)
    (hPdang : ∀ j, j < outs.length → outs.getD j [] = [] → ¬ P j) :
    ((List.range outs.length).map
        (fun i => (1 - d)/(outs.length : ℚ) + d * incomingSum msgs i)).length = outs.length
    ∧ (∀ x ∈ (List.range outs.length).map
        (fun i => (1 - d)/(outs.length : ℚ) + d * incomingSum msgs i), 0 < x)
    ∧ ((List.range outs.length).map
        (fun i => (1 - d)/(outs.length : ℚ) + d * incomingSum msgs i)).sum ≤ 1
    ∧ (((List.range outs.length).map
        (fun i => (1 - d)/(outs.length : ℚ) + d * incomingSum msgs i)).sum = 1
        → ∀ os ∈ outs, os ≠ []) := by
  set n := outs.length with hn_def
  have hnQ : (0 : ℚ) < (n : ℚ) := by
    have : 0 < n := Nat.pos_of_ne_zero hn
    exact_mod_cast this
  have hvalsD : ∀ j, j < n → 0 < vals.getD j 0 := by
    intro j hj
    rw [List.getD_eq_getElem vals 0 (by omega)]
    exact hpos _ (List.getElem_mem _)
  -- the mass actually sent is bounded by the current total mass
  have hM_le : (msgs.map Prod.snd).sum ≤ vals.sum := by
    rw [hmass]
    calc (∑ j ∈ Finset.range n, if P j then vals.getD j 0 else 0)
        ≤ ∑ j ∈ Finset.range n, vals.getD j 0 := by
          apply Finset.sum_le_sum
          intro j hj
          by_cases hPj : P j
          · simp [hPj]
          · simp only [hPj, if_false]
            exact le_of_lt (hvalsD j (Finset.mem_range.mp hj))
      _ = vals.sum := by rw [← hlen] at *; exact sum_getD_range vals
  have hsum_eq : ((List.range n).map
      (fun i => (1 - d)/(n : ℚ) + d * incomingSum msgs i)).sum
      = (1 - d) + d * (msgs.map Prod.snd).sum := by
    rw [sum_map_rangeQ, Finset.sum_add_distrib, Finset.sum_const, Finset.card_range,
      ← Finset.mul_sum, sum_incomingSum n msgs htgt, nsmul_eq_mul]
    field_simp
  refine ⟨by simp, ?_, ?_, ?_⟩
  · intro x hx
    obtain ⟨i, hi, rfl⟩ := List.mem_map.mp hx
    have h1 : 0 < (1 - d)/(n : ℚ) := div_pos (by linarith) hnQ
    have h2 : 0 ≤ d * incomingSum msgs i := by
      apply mul_nonneg (le_of_lt hd0)
      exact incomingSum_nonneg msgs i hnn
    linarith
  · rw [hsum_eq]
    nlinarith [hM_le, hsum]
  · intro h1 os hos hose
    obtain ⟨j0, hj0, hj0eq⟩ := List.mem_iff_getElem.mp hos
    have hdang : outs.getD j0 [] = [] := by
      rw [List.getD_eq_getElem outs [] hj0, hj0eq, hose]
    have hnotP : ¬ P j0 := hPdang j0 hj0 hdang
    -- strict inequality: the dangling vertex keeps its mass out of the total
    have hMlt : (msgs.map Prod.snd).sum < vals.sum := by
      rw [hmass]
      have hstep : (∑ j ∈ Finset.range n, if P j then vals.getD j 0 else 0)
          < ∑ j ∈ Finset.range n, vals.getD j 0 := by
        apply Finset.sum_lt_sum
        · intro j hj
          by_cases hPj : P j
          · simp [hPj]
          · simp only [hPj, if_false]
            exact le_of_lt (hvalsD j (Finset.mem_range.mp hj))
        · refine ⟨j0, Finset.mem_range.mpr hj0, ?_⟩
          simp only [hnotP, if_false]
          exact hvalsD j0 hj0
      calc (∑ j ∈ Finset.range n, if P j then vals.getD j 0 else 0)
          < ∑ j ∈ Finset.range n, vals.getD j 0 := hstep
        _ = vals.sum := by rw [← hlen] at *; exact sum_getD_range vals
    rw [hsum_eq] at h1
    nlinarith [hMlt, hsum]

theorem sendAll_targets (outs : List (List ℕ)) (s : PregelState)
    (hvalid : ∀ os ∈ outs, ∀ t ∈ os, t < outs.length) :
    ∀ p ∈ sendAll outs s, p.1 < outs.length := by
  intro p hp
  unfold sendAll at hp
  obtain ⟨j, hj, hpj⟩ := List.mem_flatMap.mp hp
  have hjn : j < outs.length := List.mem_range.mp hj
  have hmem : outs.getD j [] ∈ outs := by
    rw [List.getD_eq_getElem outs [] hjn]
    exact List.getElem_mem _
  split at hpj
  · split at hpj
    · exact absurd hpj (List.not_mem_nil p)
    · obtain ⟨t, ht, rfl⟩ := List.mem_map.mp hpj
      exact hvalid _ hmem t ht
  · exact absurd hpj (List.not_mem_nil p)

theorem sendAll_nonneg (outs : List (List ℕ)) (s : PregelState)
    (hlen : s.values.length = outs.length)
    (hpos : ∀ x ∈ s.values, 0 < x) :
    ∀ p ∈ sendAll outs s, 0 ≤ p.2 := by
  intro p hp
  unfold sendAll at hp
  obtain ⟨j, hj, hpj⟩ := List.mem_flatMap.mp hp
  have hjn : j < outs.length := List.mem_range.mp hj
  have hv : 0 < s.values.getD j 0 := by
    rw [List.getD_eq_getElem s.values 0 (by omega)]
    exact hpos _ (List.getElem_mem _)
  split at hpj
  · split at hpj
    · exact absurd hpj (List.not_mem_nil p)
    · obtain ⟨t, ht, rfl⟩ := List.mem_map.mp hpj
      exact div_nonneg (le_of_lt hv) (Nat.cast_nonneg _)
  · exact absurd hpj (List.not_mem_nil p)

theorem sendAll_mass (outs : List (List ℕ)) (s : PregelState) :
    ((sendAll outs s).map Prod.snd).sum
      = ∑ j ∈ Finset.range outs.length,
          if s.active.getD j false = true ∧ outs.getD j [] ≠ []
          then s.values.getD j 0 else 0 := by
  apply mass_flatMap_range
  intro j
  by_cases ha : s.active.getD j false = true
  · by_cases ho : outs.getD j [] = []
    · rw [if_pos ha, if_pos ho, if_neg (fun hc => hc.2 ho)]
      simp
    · have hlen : ((outs.getD j []).length : ℚ) ≠ 0 := by
        have : (outs.getD j []).length ≠ 0 := by
          intro hc
          exact ho (List.length_eq_zero.mp hc)
        exact_mod_cast this
      rw [if_pos ha, if_neg ho, if_pos ⟨ha, ho⟩, List.map_map]
      have hcomp : (Prod.snd ∘ fun (t : ℕ) => (t, s.values.getD j 0 / ((outs.getD j []).length : ℚ)))
          = fun (x : ℕ) => s.values.getD j 0 / ((outs.getD j []).length : ℚ) := rfl
      rw [hcomp, sum_map_constQ, mul_div_cancel₀ _ hlen]
  · rw [if_neg ha, if_neg (by rw [not_and_or]; exact Or.inl ha)]
    simp

theorem mapPhaseAll_targets (outs : List (List ℕ)) (cur : List ℚ)
    (hvalid : ∀ os ∈ outs, ∀ t ∈ os, t < outs.length) :
    ∀ p ∈ (List.range outs.length).flatMap (fun j => mapPhase outs j (cur.getD j 0)),
      p.1 < outs.length := by
  intro p hp
  obtain ⟨j, hj, hpj⟩ := List.mem_flatMap.mp hp
  have hjn : j < outs.length := List.mem_range.mp hj
  have hmem : outs.getD j [] ∈ outs := by
    rw [List.getD_eq_getElem outs [] hjn]
    exact List.getElem_mem _
  unfold mapPhase at hpj
  split at hpj
  · exact absurd hpj (List.not_mem_nil p)
  · obtain ⟨t, ht, rfl⟩ := List.mem_map.mp hpj
    exact hvalid _ hmem t ht

theorem mapPhaseAll_nonneg (outs : List (List ℕ)) (cur : List ℚ)
    (hlen : cur.length = outs.length)
    (hpos : ∀ x ∈ cur, 0 < x) :
    ∀ p ∈ (List.range outs.length).flatMap (fun j => mapPhase outs j (cur.getD j 0)),
      0 ≤ p.2 := by
  intro p hp
  obtain ⟨j, hj, hpj⟩ := List.mem_flatMap.mp hp
  have hjn : j < outs.length := List.mem_range.mp hj
  have hv : 0 < cur.getD j 0 := by
    rw [List.getD_eq_getElem cur 0 (by omega)]
    exact hpos _ (List.getElem_mem _)
  unfold mapPhase at hpj
  split at hpj
  · exact absurd hpj (List.not_mem_nil p)
  · obtain ⟨t, ht, rfl⟩ := List.mem_map.mp hpj
    exact div_nonneg (le_of_lt hv) (Nat.cast_nonneg _)

theorem mapPhaseAll_mass (outs : List (List ℕ)) (cur : List ℚ) :
    (((List.range outs.length).flatMap (fun j => mapPhase outs j (cur.getD j 0))).map
      Prod.snd).sum
      = ∑ j ∈ Finset.range outs.length,
          if outs.getD j [] ≠ [] then cur.getD j 0 else 0 := by
  apply mass_flatMap_range
  intro j
  unfold mapPhase
  by_cases ho : outs.getD j [] = []
  · rw [if_pos ho, if_neg (not_not_intro ho)]
    simp
  · have hlen : ((outs.getD j []).length : ℚ) ≠ 0 := by
      have : (outs.getD j []).length ≠ 0 := by
        intro hc
        exact ho (List.length_eq_zero.mp hc)
      exact_mod_cast this
    rw [if_neg ho, if_pos ho, List.map_map]
    have hcomp : (Prod.snd ∘ fun (t : ℕ) => (t, cur.getD j 0 / ((outs.getD j []).length : ℚ)))
        = fun (x : ℕ) => cur.getD j 0 / ((outs.getD j []).length : ℚ) := rfl
    rw [hcomp, sum_map_constQ, mul_div_cancel₀ _ hlen]

theorem runSuperstep_invariant (outs : List (List ℕ)) (d : ℚ) (s : PregelState)
    (hn : outs.length ≠ 0) (hd0 : 0 < d) (hd1 : d < 1)
    (hvalid : ∀ os ∈ outs, ∀ t ∈ os, t < outs.length)
    (hlen : s.values.length = outs.length)
    (hpos : ∀ x ∈ s.values, 0 < x) (hsum : s.values.sum ≤ 1) :
    (runSuperstep outs d s).values.length = outs.length
    ∧ (∀ x ∈ (runSuperstep outs d s).values, 0 < x)
    ∧ (runSuperstep outs d s).values.sum ≤ 1
    ∧ ((runSuperstep outs d s).values.sum = 1 → ∀ os ∈ outs, os ≠ []) := by
  have hvals : (runSuperstep outs d s).values
      = (List.range outs.length).map
          (fun i => (1 - d)/(outs.length : ℚ) + d * incomingSum (sendAll outs s) i) := rfl
  rw [hvals]
  exact step_core outs d s.values (sendAll outs s)
    (fun j => s.active.getD j false = true ∧ outs.getD j [] ≠ [])
    hn hd0 hd1 hlen hpos hsum
    (sendAll_targets outs s hvalid) (sendAll_nonneg outs s hlen hpos)
    (sendAll_mass outs s)
    (fun j hj hdang hc => hc.2 hdang)

theorem mapReduceIteration_invariant (outs : List (List ℕ)) (d : ℚ) (cur : List ℚ)
    (hn : outs.length ≠ 0) (hd0 : 0 < d) (hd1 : d < 1)
    (hvalid : ∀ os ∈ outs, ∀ t ∈ os, t < outs.length)
    (hlen : cur.length = outs.length)
    (hpos : ∀ x ∈ cur, 0 < x) (hsum : cur.sum ≤ 1) :
    (mapReduceIteration outs d cur).length = outs.length
    ∧ (∀ x ∈ mapReduceIteration outs d cur, 0 < x)
    ∧ (mapReduceIteration outs d cur).sum ≤ 1
    ∧ ((mapReduceIteration outs d cur).sum = 1 → ∀ os ∈ outs, os ≠ []) := by
  have hvals : mapReduceIteration outs d cur
      = (List.range outs.length).map
          (fun i => (1 - d)/(outs.length : ℚ)
            + d * incomingSum ((List.range outs.length).flatMap
                (fun j => mapPhase outs j (cur.getD j 0))) i) := rfl
  rw [hvals]
  exact step_core outs d cur
    ((List.range outs.length).flatMap (fun j => mapPhase outs j (cur.getD j 0)))
    (fun j => outs.getD j [] ≠ [])
    hn hd0 hd1 hlen hpos hsum
    (mapPhaseAll_targets outs cur hvalid) (mapPhaseAll_nonneg outs cur hlen hpos)
    (mapPhaseAll_mass outs cur)
    (fun j hj hdang hc => hc hdang)

theorem mapReduce_iterate_invariant (outs : List (List ℕ)) (d : ℚ) (k : ℕ)
    (hn : outs.length ≠ 0) (hd0 : 0 < d) (hd1 : d < 1)
    (hvalid : ∀ os ∈ outs, ∀ t ∈ os, t < outs.length) :
    ((mapReduceIteration outs d)^[k]
        (List.replicate outs.length (1/(outs.length : ℚ)))).length = outs.length
    ∧ (∀ x ∈ (mapReduceIteration outs d)^[k]
        (List.replicate outs.length (1/(outs.length : ℚ))), 0 < x)
    ∧ ((mapReduceIteration outs d)^[k]
        (List.replicate outs.length (1/(outs.length : ℚ)))).sum ≤ 1 := by
  induction k with
  | zero =>
    refine ⟨by simp, ?_, ?_⟩
    · intro x hx
      simp only [Function.iterate_zero, id_eq] at hx
      have heq := List.eq_of_mem_replicate hx
      rw [heq]
      have : (0:ℚ) < (outs.length : ℚ) := by
        exact_mod_cast Nat.pos_of_ne_zero hn
      positivity
    · simp only [Function.iterate_zero, id_eq, List.sum_replicate, nsmul_eq_mul]
      have : (outs.length : ℚ) ≠ 0 := by exact_mod_cast hn
      rw [mul_one_div, div_self this]
  | succ m ih =>
    rw [Function.iterate_succ_apply']
    obtain ⟨h1, h2, h3, -⟩ := mapReduceIteration_invariant outs d _ hn hd0 hd1 hvalid
      ih.1 ih.2.1 ih.2.2
    exact ⟨h1, h2, h3⟩

theorem pregel_iterate_invariant (outs : List (List ℕ)) (d : ℚ) (k : ℕ)
    (hn : outs.length ≠ 0) (hd0 : 0 < d) (hd1 : d < 1)
    (hvalid : ∀ os ∈ outs, ∀ t ∈ os, t < outs.length) :
    ((runSuperstep outs d)^[k] (pregelInit outs.length)).values.length = outs.length
    ∧ (∀ x ∈ ((runSuperstep outs d)^[k] (pregelInit outs.length)).values, 0 < x)
    ∧ ((runSuperstep outs d)^[k] (pregelInit outs.length)).values.sum ≤ 1 := by
  induction k with
  | zero =>
    refine ⟨by simp [pregelInit], ?_, ?_⟩
    · intro x hx
      simp only [Function.iterate_zero, id_eq, pregelInit] at hx
      have heq := List.eq_of_mem_replicate hx
      rw [heq]
      have : (0:ℚ) < (outs.length : ℚ) := by
        exact_mod_cast Nat.pos_of_ne_zero hn
      positivity
    · simp only [Function.iterate_zero, id_eq, pregelInit, List.sum_replicate, nsmul_eq_mul]
      have : (outs.length : ℚ) ≠ 0 := by exact_mod_cast hn
      rw [mul_one_div, div_self this]
  | succ m ih =>
    rw [Function.iterate_succ_apply']
    obtain ⟨h1, h2, h3, -⟩ := runSuperstep_invariant outs d _ hn hd0 hd1 hvalid
      ih.1 ih.2.1 ih.2.2
    exact ⟨h1, h2, h3⟩

/-- C3: for either PageRank engine, starting from the uniform vector
`1/N` over a non-empty corpus whose links stay inside the corpus, the
scores after every iteration (MapReduce) and after every superstep
(Pregel) sum to at most `1`, and they sum to exactly `1` only when no
document has zero outdegree.  The damping factor only needs `0 < d < 1`
(the configured `d = 0.85` qualifies). -/
theorem c3_scores_sum_at_most_one (outs : List (List ℕ)) (d : ℚ) (k : ℕ)
    (hn : outs.length ≠ 0) (hd0 : 0 < d) (hd1 : d < 1)
    (hvalid : ∀ os ∈ outs, ∀ t ∈ os, t < outs.length) (hk : 1 ≤ k) :
    (((mapReduceIteration outs d)^[k]
        (List.replicate outs.length (1/(outs.length : ℚ)))).sum ≤ 1
      ∧ (((mapReduceIteration outs d)^[k]
          (List.replicate outs.length (1/(outs.length : ℚ)))).sum = 1
        → ∀ os ∈ outs, os ≠ []))
    ∧ (((runSuperstep outs d)^[k] (pregelInit outs.length)).values.sum ≤ 1
      ∧ (((runSuperstep outs d)^[k] (pregelInit outs.length)).values.sum = 1
        → ∀ os ∈ outs, os ≠ [])) := by
  obtain ⟨m, rfl⟩ : ∃ m, k = m + 1 := ⟨k - 1, by omega⟩
  constructor
  · have prev := mapReduce_iterate_invariant outs d m hn hd0 hd1 hvalid
    rw [Function.iterate_succ_apply']
    obtain ⟨-, -, h3, h4⟩ := mapReduceIteration_invariant outs d _ hn hd0 hd1 hvalid
      prev.1 prev.2.1 prev.2.2
    exact ⟨h3, h4⟩
  · have prev := pregel_iterate_invariant outs d m hn hd0 hd1 hvalid
    rw [Function.iterate_succ_apply']
    obtain ⟨-, -, h3, h4⟩ := runSuperstep_invariant outs d _ hn hd0 hd1 hvalid
      prev.1 prev.2.1 prev.2.2
    exact ⟨h3, h4⟩

/-- Witness for C3: the single-document graph with a self-loop, damping
`0.85`, after one iteration/superstep. -/
theorem c3_scores_sum_at_most_one_witness :
    (((mapReduceIteration [[0]] (17/20))^[1]
        (List.replicate 1 (1/((1 : ℕ) : ℚ)))).sum ≤ 1
      ∧ (((mapReduceIteration [[0]] (17/20))^[1]
          (List.replicate 1 (1/((1 : ℕ) : ℚ)))).sum = 1
        → ∀ os ∈ [[0]], os ≠ ([] : List ℕ)))
    ∧ ((((runSuperstep [[0]] (17/20))^[1] (pregelInit 1)).values.sum ≤ 1)
      ∧ ((((runSuperstep [[0]] (17/20))^[1] (pregelInit 1)).values.sum = 1)
        → ∀ os ∈ [[0]], os ≠ ([] : List ℕ))) :=
  c3_scores_sum_at_most_one [[0]] (17/20) 1 (by norm_num) (by norm_num) (by norm_num)
    (by
      intro os hos t ht
      simp only [List.mem_singleton] at hos
      subst hos
      simp only [List.mem_singleton] at ht
      subst ht
      simp) (by norm_num)

theorem getD_map_range (n i : ℕ) (hi : i < n) (g : ℕ → ℚ) :
    ((List.range n).map g).getD i 0 = g i := by
  rw [List.getD_eq_getElem _ _ (by simpa using hi), List.getElem_map, List.getElem_range]

theorem getD_map_range_bool (n i : ℕ) (hi : i < n) (g : ℕ → Bool) :
    ((List.range n).map g).getD i false = g i := by
  rw [List.getD_eq_getElem _ _ (by simpa using hi), List.getElem_map, List.getElem_range]

theorem incomingSum_sendAll (outs : List (List ℕ)) (s : PregelState) (i : ℕ) :
    incomingSum (sendAll outs s) i
      = ∑ j ∈ Finset.range outs.length,
          (if s.active.getD j false = true
            then ((outs.getD j []).count i : ℚ) * s.values.getD j 0
              / ((outs.getD j []).length : ℚ)
            else 0) := by
  unfold sendAll
  rw [incomingSum_flatMap_range]
  apply Finset.sum_congr rfl
  intro j hj
  by_cases ha : s.active.getD j false = true
  · rw [if_pos ha, if_pos ha]
    by_cases ho : outs.getD j [] = []
    · rw [if_pos ho, ho]
      simp [incomingSum]
    · rw [if_neg ho, incomingSum_shareList, mul_div_assoc]
  · rw [if_neg ha, if_neg ha]
    simp [incomingSum]

/-- C4 (amended): one superstep of the Pregel engine behaves as follows:
(1) every *active* vertex with outdegree `k > 0` and value `v` contributes
one message `(target, v/k)` per outgoing edge while inactive vertices send
nothing; (2) every vertex — active or not — sums its incoming messages and
recomputes its value as `(1-d)/N + d*incoming_sum`; (3) a vertex ends the
superstep active exactly when its value changed by *more* than `1e-10`
(hence inactive exactly when the change is at most `1e-10`); all sends
complete before any value is recomputed, which the closed-form sum over
sources expresses. -/
theorem c4_superstep_characterization (outs : List (List ℕ)) (d : ℚ) (s : PregelState)
    (i : ℕ) (hi : i < outs.length) :
    (runSuperstep outs d s).values.getD i 0
      = (1 - d)/(outs.length : ℚ)
        + d * ∑ j ∈ Finset.range outs.length,
            (if s.active.getD j false = true
              then ((outs.getD j []).count i : ℚ) * s.values.getD j 0
                / ((outs.getD j []).length : ℚ)
              else 0)
    ∧ ((runSuperstep outs d s).active.getD i false = true
        ↔ (1 : ℚ)/10^10 < |(runSuperstep outs d s).values.getD i 0 - s.values.getD i 0|) := by
  have hv : (runSuperstep outs d s).values
      = (List.range outs.length).map
          (fun i => (1 - d)/(outs.length : ℚ) + d * incomingSum (sendAll outs s) i) := rfl
  have hact : (runSuperstep outs d s).active
      = (List.range outs.length).map (fun i =>
          decide ((1 : ℚ)/10^10
            < |((List.range outs.length).map
                  (fun i' => (1 - d)/(outs.length : ℚ)
                    + d * incomingSum (sendAll outs s) i')).getD i 0
                - s.values.getD i 0|)) := rfl
  constructor
  · rw [hv, getD_map_range _ _ hi, incomingSum_sendAll]
  · rw [hact, getD_map_range_bool _ _ hi, decide_eq_true_eq, ← hv]

/-- Witness for C4 at the one-vertex self-loop graph with unit value. -/
theorem c4_superstep_characterization_witness :
    (runSuperstep [[0]] (17/20) ⟨[1], [true]⟩).values.getD 0 0
      = (1 - 17/20)/(([[0]] : List (List ℕ)).length : ℚ)
        + (17/20) * ∑ j ∈ Finset.range ([[0]] : List (List ℕ)).length,
            (if ([true] : List Bool).getD j false = true
              then ((([[0]] : List (List ℕ)).getD j []).count 0 : ℚ)
                  * ([(1 : ℚ)] : List ℚ).getD j 0
                / ((([[0]] : List (List ℕ)).getD j []).length : ℚ)
              else 0)
    ∧ ((runSuperstep [[0]] (17/20) ⟨[1], [true]⟩).active.getD 0 false = true
        ↔ (1 : ℚ)/10^10
          < |(runSuperstep [[0]] (17/20) ⟨[1], [true]⟩).values.getD 0 0
              - ([(1 : ℚ)] : List ℚ).getD 0 0|) :=
  c4_superstep_characterization [[0]] (17/20) ⟨[1], [true]⟩ 0 (by norm_num)

/-- C4, refutation of the original wording: in the state where vertex `0`
holds value `1/2` with an outgoing edge to vertex `1` but is *inactive*,
the code sends no message, so vertex `1` receives nothing and ends at
`3/40`, not at the `(1-d)/2 + d·(1/2)` =  `1/2` the claim's clause (1)
("every vertex ... emits") predicts.  Moreover at a value change of
exactly `1e-10` the code marks the vertex inactive although the claim's
clause (3) ("inactive exactly when the change is less than 1e-10") calls
it active. -/
theorem c4_superstep_claim_refuted :
    (runSuperstep [[1], []] (17/20) ⟨[1/2, 1/2], [false, true]⟩).values.getD 1 0 = 3/40
    ∧ (runSuperstep [[1], []] (17/20) ⟨[1/2, 1/2], [false, true]⟩).values.getD 1 0
        ≠ (1 - 17/20)/2 + (17/20) * ((1/2)/1)
    ∧ (runSuperstep [[]] (17/20) ⟨[3/20 + 1/10^10], [true]⟩).active.getD 0 false = false
    ∧ ¬ |(runSuperstep [[]] (17/20) ⟨[3/20 + 1/10^10], [true]⟩).values.getD 0 0
          - (3/20 + 1/10^10)| < 1/10^10 := by
  have h1 : runSuperstep [[1], []] (17/20) ⟨[1/2, 1/2], [false, true]⟩
      = ⟨[3/40, 3/40], [true, true]⟩ := by
    norm_num [runSuperstep, sendAll, incomingSum, List.range_succ,
      decide_eq_true_eq, decide_eq_false_iff_not, abs_of_pos, abs_of_neg, abs_of_nonneg,
      abs_of_nonpos]
  have h2 : runSuperstep [[]] (17/20) ⟨[3/20 + 1/10^10], [true]⟩
      = ⟨[3/20], [false]⟩ := by
    norm_num [runSuperstep, sendAll, incomingSum, List.range_succ,
      decide_eq_true_eq, decide_eq_false_iff_not, abs_of_pos, abs_of_neg, abs_of_nonneg,
      abs_of_nonpos]
  rw [h1, h2]
  norm_num [abs_of_pos, abs_of_neg, abs_of_nonneg, abs_of_nonpos]

/-! ### Character-level facts about the ASCII model -/

theorem char_toNat_ofNat (n : ℕ) (h : n < 55296) : (Char.ofNat n).toNat = n := by
  unfold Char.ofNat
  rw [dif_pos (Or.inl h)]
  unfold Char.ofNatAux Char.toNat
  simp [UInt32.toNat, BitVec.toNat_ofNatLt]

theorem char_eq_of_toNat (a b : Char) (h : a.toNat = b.toNat) : a = b := by
  apply Char.eq_of_val_eq
  apply UInt32.eq_of_toBitVec_eq
  apply BitVec.eq_of_toNat_eq
  exact h

theorem toNat_pyLower (c : Char) :
    (pyLower c).toNat
      = if 65 ≤ c.toNat ∧ c.toNat ≤ 90 then c.toNat + 32 else c.toNat := by
  unfold pyLower
  split
  · rename_i h
    exact char_toNat_ofNat (c.toNat + 32) (by omega)
  · rfl

theorem pyLower_idem (c : Char) : pyLower (pyLower c) = pyLower c := by
  apply char_eq_of_toNat
  rw [toNat_pyLower (pyLower c), toNat_pyLower c]
  split <;> [skip; rfl]
  split_ifs <;> omega

theorem isWordChar_pyLower (c : Char) : isWordChar (pyLower c) = isWordChar c := by
  unfold isWordChar
  rw [decide_eq_decide, toNat_pyLower]
  split <;> omega

theorem isSpaceChar_pyLower (c : Char) : isSpaceChar (pyLower c) = isSpaceChar c := by
  unfold isSpaceChar
  rw [decide_eq_decide, toNat_pyLower]
  split <;> omega

theorem word_not_space (c : Char) (h : isWordChar c = true) : isSpaceChar c = false := by
  unfold isWordChar at h
  unfold isSpaceChar
  rw [decide_eq_true_eq] at h
  rw [decide_eq_false_iff_not]
  omega

theorem word_ne_lt (c : Char) (h : isWordChar c = true) : c ≠ '<' := by
  intro hc
  subst hc
  simp [isWordChar] at h

/-! ### What `clean_text` guarantees about its output -/

theorem substPunct_chars (l : List Char) :
    ∀ c ∈ substPunct l, isWordChar c = true ∨ isSpaceChar c = true := by
  intro c hc
  obtain ⟨c', -, rfl⟩ := List.mem_map.mp hc
  by_cases h : (isWordChar c' || isSpaceChar c') = true
  · rw [if_pos h]
    rcases Bool.or_eq_true_iff.mp h with h' | h'
    · exact Or.inl h'
    · exact Or.inr h'
  · rw [if_neg h]
    right
    decide

theorem collapseWs_chars (l : List Char) :
    ∀ c ∈ collapseWs l, (c ∈ l ∧ isSpaceChar c = false) ∨ c = ' ' := by
  induction l with
  | nil => simp [collapseWs]
  | cons a rest ih =>
    intro c hc
    cases rest with
    | nil =>
      have eqb : collapseWs [a] = if isSpaceChar a = true then [' '] else [a] := rfl
      rw [eqb] at hc
      split at hc
      · exact Or.inr (List.mem_singleton.mp hc)
      · rename_i hns
        have := List.mem_singleton.mp hc
        subst this
        exact Or.inl ⟨List.mem_cons_self c [], by
          cases hb : isSpaceChar c
          · rfl
          · exact absurd hb hns⟩
    | cons d rest' =>
      have eqc : collapseWs (a :: d :: rest')
          = if isSpaceChar a = true
            then (if isSpaceChar d = true then collapseWs (d :: rest')
              else ' ' :: collapseWs (d :: rest'))
            else a :: collapseWs (d :: rest') := rfl
      rw [eqc] at hc
      split at hc
      · split at hc
        · rcases ih c hc with ⟨h, hns⟩ | h
          · exact Or.inl ⟨List.mem_cons_of_mem a h, hns⟩
          · exact Or.inr h
        · rcases List.mem_cons.mp hc with h | h
          · exact Or.inr h
          · rcases ih c h with ⟨h', hns⟩ | h'
            · exact Or.inl ⟨List.mem_cons_of_mem a h', hns⟩
            · exact Or.inr h'
      · rename_i hns
        rcases List.mem_cons.mp hc with h | h
        · subst h
          exact Or.inl ⟨List.mem_cons_self c (d :: rest'), by
            cases hb : isSpaceChar c
            · rfl
            · exact absurd hb hns⟩
        · rcases ih c h with ⟨h', hns'⟩ | h'
          · exact Or.inl ⟨List.mem_cons_of_mem a h', hns'⟩
          · exact Or.inr h'

theorem stripWs_subset (l : List Char) : ∀ c ∈ stripWs l, c ∈ l := by
  intro c hc
  unfold stripWs at hc
  rw [List.mem_reverse] at hc
  have h1 := (List.dropWhile_sublist isSpaceChar).subset hc
  rw [List.mem_reverse] at h1
  exact (List.dropWhile_sublist isSpaceChar).subset h1

theorem cleanText_chars (text : List Char) :
    ∀ c ∈ cleanText text, (isWordChar c = true ∧ pyLower c = c) ∨ c = ' ' := by
  intro c hc
  unfold cleanText at hc
  obtain ⟨c', hc', rfl⟩ := List.mem_map.mp hc
  have h1 := stripWs_subset _ _ hc'
  rcases collapseWs_chars _ _ h1 with ⟨h2, hns⟩ | h2
  · rcases substPunct_chars _ _ h2 with h3 | h3
    · exact Or.inl ⟨by rw [isWordChar_pyLower]; exact h3, pyLower_idem c'⟩
    · rw [h3] at hns
      exact absurd hns (by simp)
  · subst h2
    right
    decide

/-! ### Tokens produced by `tokenize` -/

theorem splitWsAux_tokens (l : List Char) :
    ∀ acc, (∀ c ∈ acc, isSpaceChar c = false) →
    ∀ t ∈ splitWsAux l acc, t ≠ [] ∧ ∀ c ∈ t, isSpaceChar c = false ∧ (c ∈ l ∨ c ∈ acc) := by
  induction l with
  | nil =>
    intro acc hacc t ht
    rw [splitWsAux] at ht
    split at ht
    · exact absurd ht (List.not_mem_nil t)
    · rename_i hne
      rw [List.mem_singleton] at ht
      subst ht
      refine ⟨by simpa using hne, ?_⟩
      intro c hc
      rw [List.mem_reverse] at hc
      exact ⟨hacc c hc, Or.inr hc⟩
  | cons a rest ih =>
    intro acc hacc t ht
    rw [splitWsAux] at ht
    split at ht
    · split at ht
      · obtain ⟨h1, h2⟩ := ih [] (by simp) t ht
        refine ⟨h1, ?_⟩
        intro c hc
        obtain ⟨hns, hmem | hmem⟩ := h2 c hc
        · exact ⟨hns, Or.inl (List.mem_cons_of_mem a hmem)⟩
        · exact absurd hmem (List.not_mem_nil c)
      · rcases List.mem_cons.mp ht with h | h
        · subst h
          rename_i hne
          refine ⟨by simpa using hne, ?_⟩
          intro c hc
          rw [List.mem_reverse] at hc
          exact ⟨hacc c hc, Or.inr hc⟩
        · obtain ⟨h1, h2⟩ := ih [] (by simp) t h
          refine ⟨h1, ?_⟩
          intro c hc
          obtain ⟨hns, hmem | hmem⟩ := h2 c hc
          · exact ⟨hns, Or.inl (List.mem_cons_of_mem a hmem)⟩
          · exact absurd hmem (List.not_mem_nil c)
    · rename_i hs
      have hs' : isSpaceChar a = false := by
        cases hb : isSpaceChar a
        · rfl
        · exact absurd hb hs
      obtain ⟨h1, h2⟩ := ih (a :: acc) (by
        intro c hc
        rcases List.mem_cons.mp hc with h | h
        · subst h; exact hs'
        · exact hacc c h) t ht
      refine ⟨h1, ?_⟩
      intro c hc
      obtain ⟨hns, hmem | hmem⟩ := h2 c hc
      · exact ⟨hns, Or.inl (List.mem_cons_of_mem a hmem)⟩
      · rcases List.mem_cons.mp hmem with h | h
        · subst h; exact ⟨hns, Or.inl (List.mem_cons_self c rest)⟩
        · exact ⟨hns, Or.inr h⟩

theorem tokenize_tokens (text : List Char) (stop : List (List Char)) :
    ∀ t ∈ tokenize text stop,
      t ≠ [] ∧ (∀ c ∈ t, isWordChar c = true ∧ pyLower c = c) ∧ t ∉ stop := by
  intro t ht
  unfold tokenize at ht
  have hstop : t ∉ stop := by
    have := List.of_mem_filter ht
    simpa using this
  have hmem : t ∈ splitWs (cleanText text) := List.mem_of_mem_filter ht
  unfold splitWs at hmem
  obtain ⟨h1, h2⟩ := splitWsAux_tokens (cleanText text) [] (by simp) t hmem
  refine ⟨h1, ?_, hstop⟩
  intro c hc
  obtain ⟨hns, hmem' | hmem'⟩ := h2 c hc
  · rcases cleanText_chars text c hmem' with h | h
    · exact h
    · subst h
      exact absurd hns (by simp [isSpaceChar])
  · exact absurd hmem' (List.not_mem_nil c)

/-! ### `clean_text` is the identity on clean token text -/

theorem stripTagsFuel_id (fuel : ℕ) :
    ∀ l : List Char, (∀ c ∈ l, c ≠ '<') → stripTagsFuel fuel l = l := by
  induction fuel with
  | zero => intro l h; rfl
  | succ f ih =>
    intro l h
    cases l with
    | nil => rfl
    | cons c rest =>
      have hc : c ≠ '<' := h c (List.mem_cons_self c rest)
      simp only [stripTagsFuel]
      rw [if_neg hc, ih rest (fun x hx => h x (List.mem_cons_of_mem c hx))]

theorem stripTags_id (l : List Char) (h : ∀ c ∈ l, c ≠ '<') : stripTags l = l :=
  stripTagsFuel_id l.length l h

theorem substPunct_id (l : List Char)
    (h : ∀ c ∈ l, (isWordChar c || isSpaceChar c) = true) : substPunct l = l := by
  unfold substPunct
  induction l with
  | nil => rfl
  | cons a rest ih =>
    rw [List.map_cons, if_pos (h a (List.mem_cons_self a rest)),
      ih (fun c hc => h c (List.mem_cons_of_mem a hc))]

theorem collapseWs_id (l : List Char)
    (hchain : List.Chain' (fun a b => ¬(isSpaceChar a = true ∧ isSpaceChar b = true)) l)
    (hsp : ∀ c ∈ l, isSpaceChar c = true → c = ' ') : collapseWs l = l := by
  induction l with
  | nil => rfl
  | cons a rest ih =>
    cases rest with
    | nil =>
      have eqb : collapseWs [a] = if isSpaceChar a = true then [' '] else [a] := rfl
      rw [eqb]
      split
      · rename_i hs
        rw [hsp a (List.mem_cons_self a []) hs]
      · rfl
    | cons d rest' =>
      have eqc : collapseWs (a :: d :: rest')
          = if isSpaceChar a = true
            then (if isSpaceChar d = true then collapseWs (d :: rest')
              else ' ' :: collapseWs (d :: rest'))
            else a :: collapseWs (d :: rest') := rfl
      rw [eqc]
      obtain ⟨had, hch⟩ := List.chain'_cons.mp hchain
      have ihr := ih hch (fun c hc h => hsp c (List.mem_cons_of_mem a hc) h)
      split
      · rename_i hs
        rw [if_neg (fun hd => had ⟨hs, hd⟩), ihr, hsp a (List.mem_cons_self a _) hs]
      · rw [ihr]

theorem stripWs_id (l : List Char)
    (hhead : ∀ c, l.head? = some c → isSpaceChar c = false)
    (hlast : ∀ c, l.getLast? = some c → isSpaceChar c = false) : stripWs l = l := by
  unfold stripWs
  have h1 : l.dropWhile isSpaceChar = l := by
    cases l with
    | nil => rfl
    | cons a rest =>
      rw [List.dropWhile_cons, if_neg]
      rw [hhead a rfl]
      simp
  rw [h1]
  have h2 : l.reverse.dropWhile isSpaceChar = l.reverse := by
    cases hr : l.reverse with
    | nil => rfl
    | cons a rest =>
      rw [List.dropWhile_cons, if_neg]
      have : l.getLast? = some a := by
        rw [← List.head?_reverse, hr]
        rfl
      rw [hlast a this]
      simp
  rw [h2, List.reverse_reverse]

theorem map_pyLower_id (l : List Char) (h : ∀ c ∈ l, pyLower c = c) :
    l.map pyLower = l := by
  induction l with
  | nil => rfl
  | cons a rest ih =>
    rw [List.map_cons, h a (List.mem_cons_self a rest),
      ih (fun c hc => h c (List.mem_cons_of_mem a hc))]

theorem joinSpace_chars (ts : List (List Char)) :
    ∀ c ∈ joinSpace ts, (∃ t ∈ ts, c ∈ t) ∨ c = ' ' := by
  induction ts with
  | nil => simp [joinSpace]
  | cons t ts' ih =>
    intro c hc
    cases ts' with
    | nil =>
      exact Or.inl ⟨t, List.mem_cons_self t [], hc⟩
    | cons t2 rest =>
      have eqj : joinSpace (t :: t2 :: rest) = t ++ ' ' :: joinSpace (t2 :: rest) := rfl
      rw [eqj] at hc
      rcases List.mem_append.mp hc with h | h
      · exact Or.inl ⟨t, List.mem_cons_self t _, h⟩
      · rcases List.mem_cons.mp h with h' | h'
        · exact Or.inr h'
        · rcases ih c h' with ⟨u, hu, hcu⟩ | h''
          · exact Or.inl ⟨u, List.mem_cons_of_mem t hu, hcu⟩
          · exact Or.inr h''

theorem joinSpace_head? (t : List Char) (ts : List (List Char)) (ht : t ≠ []) :
    (joinSpace (t :: ts)).head? = t.head? := by
  cases ts with
  | nil => rfl
  | cons t2 rest =>
    have eqj : joinSpace (t :: t2 :: rest) = t ++ ' ' :: joinSpace (t2 :: rest) := rfl
    rw [eqj]
    cases t with
    | nil => exact absurd rfl ht
    | cons c cs => rfl

theorem joinSpace_ne_nil (t : List Char) (ts : List (List Char)) (ht : t ≠ []) :
    joinSpace (t :: ts) ≠ [] := by
  cases ts with
  | nil => exact ht
  | cons t2 rest =>
    have eqj : joinSpace (t :: t2 :: rest) = t ++ ' ' :: joinSpace (t2 :: rest) := rfl
    rw [eqj]
    simp

theorem joinSpace_last_not_space (ts : List (List Char))
    (hne : ∀ t ∈ ts, t ≠ [])
    (hns : ∀ t ∈ ts, ∀ c ∈ t, isSpaceChar c = false) :
    ∀ c, (joinSpace ts).getLast? = some c → isSpaceChar c = false := by
  induction ts with
  | nil => intro c hc; simp [joinSpace] at hc
  | cons t ts' ih =>
    intro c hc
    cases ts' with
    | nil =>
      have : c ∈ t := List.mem_of_mem_getLast? hc
      exact hns t (List.mem_cons_self t []) c this
    | cons t2 rest =>
      have eqj : joinSpace (t :: t2 :: rest) = t ++ ' ' :: joinSpace (t2 :: rest) := rfl
      rw [eqj] at hc
      have hjoin_ne : joinSpace (t2 :: rest) ≠ [] :=
        joinSpace_ne_nil t2 rest (hne t2 (List.mem_cons_of_mem t (List.mem_cons_self t2 rest)))
      rw [List.getLast?_append_of_ne_nil t (by simp)] at hc
      rw [show (' ' :: joinSpace (t2 :: rest)) = [' '] ++ joinSpace (t2 :: rest) from rfl,
        List.getLast?_append_of_ne_nil [' '] hjoin_ne] at hc
      exact ih (fun u hu => hne u (List.mem_cons_of_mem t hu))
        (fun u hu => hns u (List.mem_cons_of_mem t hu)) c hc

theorem chain'_no_space_token (t : List Char)
    (h : ∀ c ∈ t, isSpaceChar c = false) :
    List.Chain' (fun a b => ¬(isSpaceChar a = true ∧ isSpaceChar b = true)) t := by
  induction t with
  | nil => simp
  | cons a rest ih =>
    cases rest with
    | nil => simp
    | cons d rest' =>
      rw [List.chain'_cons]
      constructor
      · rintro ⟨ha, -⟩
        rw [h a (List.mem_cons_self a _)] at ha
        cases ha
      · exact ih (fun c hc => h c (List.mem_cons_of_mem a hc))

theorem joinSpace_chain (ts : List (List Char))
    (hne : ∀ t ∈ ts, t ≠ [])
    (hns : ∀ t ∈ ts, ∀ c ∈ t, isSpaceChar c = false) :
    List.Chain' (fun a b => ¬(isSpaceChar a = true ∧ isSpaceChar b = true))
      (joinSpace ts) := by
  induction ts with
  | nil => simp [joinSpace]
  | cons t ts' ih =>
    cases ts' with
    | nil =>
      exact chain'_no_space_token t (hns t (List.mem_cons_self t []))
    | cons t2 rest =>
      have eqj : joinSpace (t :: t2 :: rest) = t ++ ' ' :: joinSpace (t2 :: rest) := rfl
      rw [eqj]
      rw [List.chain'_append]
      refine ⟨chain'_no_space_token t (hns t (List.mem_cons_self t _)), ?_, ?_⟩
      · rw [List.chain'_cons']
        constructor
        · intro y hy
          have ht2 : t2 ≠ [] := hne t2 (List.mem_cons_of_mem t (List.mem_cons_self t2 rest))
          rw [joinSpace_head? t2 rest ht2] at hy
          have hyt2 : y ∈ t2 := List.mem_of_mem_head? hy
          rintro ⟨-, hyb⟩
          rw [hns t2 (List.mem_cons_of_mem t (List.mem_cons_self t2 rest)) y hyt2] at hyb
          cases hyb
        · exact ih (fun u hu => hne u (List.mem_cons_of_mem t hu))
            (fun u hu => hns u (List.mem_cons_of_mem t hu))
      · intro x hx y hy
        have hxt : x ∈ t := List.mem_of_mem_getLast? hx
        rintro ⟨hxb, -⟩
        rw [hns t (List.mem_cons_self t _) x hxt] at hxb
        cases hxb

theorem cleanText_joinSpace (ts : List (List Char))
    (hne : ∀ t ∈ ts, t ≠ [])
    (hgood : ∀ t ∈ ts, ∀ c ∈ t, isWordChar c = true ∧ pyLower c = c) :
    cleanText (joinSpace ts) = joinSpace ts := by
  have hCW : ∀ c ∈ joinSpace ts, (isWordChar c = true ∧ pyLower c = c) ∨ c = ' ' := by
    intro c hc
    rcases joinSpace_chars ts c hc with ⟨t, ht, hct⟩ | h
    · exact Or.inl (hgood t ht c hct)
    · exact Or.inr h
  have hns : ∀ t ∈ ts, ∀ c ∈ t, isSpaceChar c = false := by
    intro t ht c hc
    exact word_not_space c (hgood t ht c hc).1
  unfold cleanText
  rw [stripTags_id _ (by
    intro c hc
    rcases hCW c hc with ⟨hw, -⟩ | h
    · exact word_ne_lt c hw
    · subst h; decide)]
  rw [substPunct_id _ (by
    intro c hc
    rcases hCW c hc with ⟨hw, -⟩ | h
    · rw [hw]; rfl
    · subst h; decide)]
  rw [collapseWs_id _ (joinSpace_chain ts hne hns) (by
    intro c hc hs
    rcases hCW c hc with ⟨hw, -⟩ | h
    · rw [word_not_space c hw] at hs; cases hs
    · exact h)]
  rw [stripWs_id _ ?hh ?hl]
  case hh =>
    intro c hc
    cases ts with
    | nil => cases hc
    | cons t ts' =>
      rw [joinSpace_head? t ts' (hne t (List.mem_cons_self t ts'))] at hc
      have hct : c ∈ t := List.mem_of_mem_head? hc
      exact word_not_space c (hgood t (List.mem_cons_self t ts') c hct).1
  case hl =>
    intro c hc
    exact joinSpace_last_not_space ts hne hns c hc
  rw [map_pyLower_id _ (by
    intro c hc
    rcases hCW c hc with ⟨-, hl⟩ | h
    · exact hl
    · subst h; decide)]

theorem splitWsAux_chunk (t : List Char) (h : ∀ c ∈ t, isSpaceChar c = false) :
    ∀ (l : List Char) (acc : List Char),
      splitWsAux (t ++ l) acc = splitWsAux l (t.reverse ++ acc) := by
  induction t with
  | nil => intro l acc; simp
  | cons c t' ih =>
    intro l acc
    have hc : isSpaceChar c = false := h c (List.mem_cons_self c t')
    rw [List.cons_append, splitWsAux, if_neg (by rw [hc]; simp),
      ih (fun x hx => h x (List.mem_cons_of_mem c hx)) l (c :: acc)]
    congr 1
    simp

theorem splitWs_joinSpace (ts : List (List Char))
    (hne : ∀ t ∈ ts, t ≠ [])
    (hns : ∀ t ∈ ts, ∀ c ∈ t, isSpaceChar c = false) :
    splitWs (joinSpace ts) = ts := by
  induction ts with
  | nil => rfl
  | cons t ts' ih =>
    cases ts' with
    | nil =>
      show splitWsAux (joinSpace [t]) [] = [t]
      have eqj : joinSpace [t] = t ++ [] := by simp [joinSpace]
      rw [eqj, splitWsAux_chunk t (hns t (List.mem_cons_self t [])) [] [], splitWsAux,
        if_neg (by simp [hne t (List.mem_cons_self t [])])]
      simp
    | cons t2 rest =>
      have eqj : joinSpace (t :: t2 :: rest) = t ++ ' ' :: joinSpace (t2 :: rest) := rfl
      show splitWsAux (joinSpace (t :: t2 :: rest)) [] = t :: t2 :: rest
      rw [eqj, splitWsAux_chunk t (hns t (List.mem_cons_self t _)) _ [], splitWsAux,
        if_pos (by decide), if_neg (by simp [hne t (List.mem_cons_self t _)])]
      have ihr := ih (fun u hu => hne u (List.mem_cons_of_mem t hu))
        (fun u hu => hns u (List.mem_cons_of_mem t hu))
      unfold splitWs at ihr
      rw [ihr]
      simp

/-- C8: `tokenize` is idempotent on already-tokenized, space-joined input
(for any text and any stop-word set), it removes every token of the
stop-word set, it sends `"the quick fox"` with stop set `{"the"}` to
`["quick", "fox"]`, and empty or all-stop-word input yields the empty
sequence. -/
theorem c8_tokenize_idempotent_and_stop_free :
    (∀ (text : List Char) (stop : List (List Char)),
        tokenize (joinSpace (tokenize text stop)) stop = tokenize text stop)
    ∧ (∀ (text : List Char) (stop : List (List Char)) (t : List Char),
        t ∈ tokenize text stop → t ∉ stop)
    ∧ tokenize "the quick fox".toList ["the".toList] = ["quick".toList, "fox".toList]
    ∧ (∀ stop : List (List Char), tokenize [] stop = [])
    ∧ (∀ (text : List Char) (stop : List (List Char)),
        (∀ t ∈ splitWs (cleanText text), t ∈ stop) → tokenize text stop = []) := by
  refine ⟨?_, ?_, by decide, fun stop => rfl, ?_⟩
  · intro text stop
    have facts := tokenize_tokens text stop
    have hne : ∀ t ∈ tokenize text stop, t ≠ [] := fun t ht => (facts t ht).1
    have hgood : ∀ t ∈ tokenize text stop, ∀ c ∈ t, isWordChar c = true ∧ pyLower c = c :=
      fun t ht => (facts t ht).2.1
    have hns : ∀ t ∈ tokenize text stop, ∀ c ∈ t, isSpaceChar c = false :=
      fun t ht c hc => word_not_space c ((facts t ht).2.1 c hc).1
    have hdef : tokenize (joinSpace (tokenize text stop)) stop
        = (splitWs (cleanText (joinSpace (tokenize text stop)))).filter
            (fun t => decide (t ∉ stop)) := rfl
    rw [hdef, cleanText_joinSpace _ hne hgood, splitWs_joinSpace _ hne hns]
    apply List.filter_eq_self.mpr
    intro t ht
    exact decide_eq_true ((facts t ht).2.2)
  · exact fun text stop t ht => (tokenize_tokens text stop t ht).2.2
  · intro text stop h
    unfold tokenize
    apply List.filter_eq_nil_iff.mpr
    intro t ht
    simp only [decide_not, Bool.not_eq_true', decide_eq_false_iff_not, not_not]
    exact h t ht

/-- Witness for C8: a query made only of stop words tokenizes to the
empty sequence. -/
theorem c8_tokenize_idempotent_and_stop_free_witness :
    tokenize "the the".toList stopWords = [] :=
  c8_tokenize_idempotent_and_stop_free.2.2.2.2 "the the".toList stopWords (by decide)

/-! ### Correctness of the find loop used by `generate_snippet` -/

theorem matchesAt_le_length (sub text : List Char) (i : ℕ)
    (h : matchesAt sub text i = true) : i ≤ text.length := by
  unfold matchesAt at h
  rcases Bool.and_eq_true_iff.mp h with ⟨h1, -⟩
  exact of_decide_eq_true h1

theorem pyFindAux_none (sub text : List Char) :
    ∀ fuel i, pyFindAux sub text fuel i = none →
      ∀ j, i ≤ j → j < i + fuel → matchesAt sub text j = false := by
  intro fuel
  induction fuel with
  | zero => intro i h j h1 h2; omega
  | succ f ih =>
    intro i h j h1 h2
    rw [pyFindAux] at h
    split at h
    · cases h
    · rename_i hm
      rcases Nat.eq_or_lt_of_le h1 with heq | hlt
      · rw [← heq]
        cases hb : matchesAt sub text i
        · rfl
        · exact absurd hb hm
      · exact ih (i + 1) h j hlt (by omega)

theorem pyFindAux_some (sub text : List Char) :
    ∀ fuel i p, pyFindAux sub text fuel i = some p →
      i ≤ p ∧ matchesAt sub text p = true
        ∧ ∀ j, i ≤ j → j < p → matchesAt sub text j = false := by
  intro fuel
  induction fuel with
  | zero => intro i p h; cases h
  | succ f ih =>
    intro i p h
    rw [pyFindAux] at h
    split at h
    · rename_i hm
      cases h
      exact ⟨le_refl i, hm, fun j h1 h2 => absurd h2 (by omega)⟩
    · rename_i hm
      obtain ⟨h1, h2, h3⟩ := ih (i + 1) p h
      refine ⟨by omega, h2, ?_⟩
      intro j hj1 hj2
      rcases Nat.eq_or_lt_of_le hj1 with heq | hlt
      · rw [← heq]
        cases hb : matchesAt sub text i
        · rfl
        · exact absurd hb hm
      · exact h3 j hlt hj2

theorem pyFind_none (sub text : List Char) (k : ℕ) (h : pyFind sub text k = none) :
    ∀ j, k ≤ j → matchesAt sub text j = false := by
  intro j hj
  by_cases hjl : j ≤ text.length
  · exact pyFindAux_none sub text _ k h j hj (by omega)
  · cases hb : matchesAt sub text j
    · rfl
    · exact absurd (matchesAt_le_length sub text j hb) hjl

theorem pyFind_some (sub text : List Char) (k p : ℕ) (h : pyFind sub text k = some p) :
    k ≤ p ∧ matchesAt sub text p = true
      ∧ ∀ j, k ≤ j → j < p → matchesAt sub text j = false :=
  pyFindAux_some sub text _ k p h

theorem findPositionsFuel_mem (sub text : List Char) :
    ∀ fuel start, ∀ pr ∈ findPositionsFuel sub text fuel start,
      start ≤ pr.1 ∧ matchesAt sub text pr.1 = true ∧ pr.2 = pr.1 + sub.length := by
  intro fuel
  induction fuel with
  | zero => intro start pr hpr; cases hpr
  | succ f ih =>
    intro start pr hpr
    rw [findPositionsFuel] at hpr
    cases hf : pyFind sub text start with
    | none => rw [hf] at hpr; cases hpr
    | some p =>
      rw [hf] at hpr
      obtain ⟨hp1, hp2, -⟩ := pyFind_some sub text start p hf
      rcases List.mem_cons.mp hpr with h | h
      · subst h
        exact ⟨hp1, hp2, rfl⟩
      · obtain ⟨h1, h2, h3⟩ := ih (p + 1) pr h
        exact ⟨by omega, h2, h3⟩

theorem findPositionsFuel_complete (sub text : List Char) :
    ∀ fuel start j, start ≤ j → matchesAt sub text j = true →
      text.length + 1 ≤ fuel + start →
      (j, j + sub.length) ∈ findPositionsFuel sub text fuel start := by
  intro fuel
  induction fuel with
  | zero =>
    intro start j h1 h2 h3
    have := matchesAt_le_length sub text j h2
    omega
  | succ f ih =>
    intro start j h1 h2 h3
    rw [findPositionsFuel]
    cases hf : pyFind sub text start with
    | none =>
      have := pyFind_none sub text start hf j h1
      rw [h2] at this
      cases this
    | some p =>
      obtain ⟨hp1, hp2, hp3⟩ := pyFind_some sub text start p hf
      rcases Nat.lt_trichotomy j p with hlt | heq | hgt
      · have := hp3 j h1 hlt
        rw [h2] at this
        cases this
      · subst heq
        exact List.mem_cons_self _ _
      · exact List.mem_cons_of_mem _ (ih (p + 1) j (by omega) h2 (by omega))

/-- C9 (amended): for non-empty text, when no query term occurs
(case-insensitively) in the text the snippet is the prefix of the
configured length, with an ellipsis marker appended exactly when the text
is longer than that length; and when some term first occurs at position
`p`, the snippet is the window of the configured length starting at
`max(0, p - length/2)`, clipped at the end of the text, with an ellipsis
marker prepended exactly when the window does not start at the beginning
and appended exactly when it does not reach the end. -/
theorem c9_snippet_characterization (text : List Char) (terms : List (List Char))
    (maxLength : ℕ) (htext : text ≠ []) :
    ((∀ term ∈ terms, ∀ i, matchesAt (term.map pyLower) (text.map pyLower) i = false) →
      generateSnippet text terms maxLength
        = if maxLength < text.length then text.take maxLength ++ ['.', '.', '.'] else text)
    ∧ (∀ p, (∃ term ∈ terms, matchesAt (term.map pyLower) (text.map pyLower) p = true) →
        (∀ q, q < p → ∀ term ∈ terms,
          matchesAt (term.map pyLower) (text.map pyLower) q = false) →
        generateSnippet text terms maxLength = snippetWindow text p maxLength) := by
  constructor
  · intro hno
    have hpos : snippetPositions text terms = [] := by
      apply List.eq_nil_iff_forall_not_mem.mpr
      intro pr hpr
      obtain ⟨term, hterm, hmem⟩ := List.mem_flatMap.mp hpr
      obtain ⟨-, h2, -⟩ := findPositionsFuel_mem _ _ _ _ pr hmem
      rw [hno term hterm pr.1] at h2
      cases h2
    unfold generateSnippet
    rw [if_neg htext, if_pos hpos]
  · intro p hocc hmin
    obtain ⟨t0, ht0, hm0⟩ := hocc
    have hmem : (p, p + (t0.map pyLower).length) ∈ snippetPositions text terms := by
      apply List.mem_flatMap.mpr
      refine ⟨t0, ht0, ?_⟩
      unfold findPositions
      exact findPositionsFuel_complete _ _ _ 0 p (by omega) hm0 (by simp)
    have hne : snippetPositions text terms ≠ [] := by
      intro hc
      rw [hc] at hmem
      cases hmem
    have hfirst : firstTermPos text terms = p := by
      unfold firstTermPos
      have hm : ((snippetPositions text terms).map Prod.fst).min? = some p := by
        rw [List.min?_eq_some_iff']
        constructor
        · exact List.mem_map.mpr ⟨_, hmem, rfl⟩
        · intro b hb
          obtain ⟨pr, hpr, rfl⟩ := List.mem_map.mp hb
          obtain ⟨term, hterm, hmem'⟩ := List.mem_flatMap.mp hpr
          obtain ⟨-, h2, -⟩ := findPositionsFuel_mem _ _ _ _ pr hmem'
          by_contra hcon
          have hlt : pr.1 < p := by omega
          rw [hmin pr.1 hlt term hterm] at h2
          cases h2
      rw [hm]
      rfl
    unfold generateSnippet
    rw [if_neg htext, if_neg hne, hfirst]

/-- Witness for C9: the term `"quick"` occurs first at position `0` of
`"quick fox"`, so the snippet is the whole text (no ellipsis on either
side). -/
theorem c9_snippet_characterization_witness :
    generateSnippet "quick fox".toList ["quick".toList] 150
      = snippetWindow "quick fox".toList 0 150 :=
  (c9_snippet_characterization "quick fox".toList ["quick".toList] 150
      (by decide)).2 0
    ⟨"quick".toList, by decide, by decide⟩
    (fun q hq term hterm => absurd hq (by omega))

/-- C9, refutation of the original wording: on a 160-character text
containing no query term, with the configured snippet length `150`, the
code returns the 150-character prefix *plus* an ellipsis marker, which is
not `text[:150]` — the claim says the snippet is a prefix of the
configured length. -/
theorem c9_snippet_prefix_claim_refuted :
    generateSnippet (List.replicate 160 'a') ["zz".toList] 150
      = List.replicate 150 'a' ++ ['.', '.', '.']
    ∧ generateSnippet (List.replicate 160 'a') ["zz".toList] 150
      ≠ (List.replicate 160 'a').take 150 := by
  constructor
  · decide
  · decide

/-- C6: re-indexing the same document (`url "u"`) first with content
`"hello world"` and then with content `"hello"` leaves the posting
`("world", doc 1)` in the inverted index although `"world"` does not
occur in the new tokenized content — a stale posting survives, violating
the claimed invariant that a posting exists iff the term occurs in the
document's current tokenized content. -/
theorem c6_stale_posting_survives_reindex :
    postingExists
        (indexDocument (indexDocument emptyDB "u" "t" "hello world" []) "u" "t" "hello" [])
        "world".toList 1 = true
    ∧ "world".toList ∉ tokenize "hello".toList stopWords
    ∧ ¬ (postingExists
          (indexDocument (indexDocument emptyDB "u" "t" "hello world" []) "u" "t" "hello" [])
          "world".toList 1 = true
        ↔ "world".toList ∈ tokenize "hello".toList stopWords) := by
  refine ⟨by decide, by decide, ?_⟩
  intro h
  exact absurd (h.mp (by decide)) (by decide)

/-- C10: for any corpus, query, pagerank flag and cache, a method string
whose lowercase form is neither `"term"` nor `"document"` makes `search`
return exactly the result of the term-at-a-time strategy — the
unrecognized name silently falls back instead of failing. -/
theorem c10_unknown_method_falls_back_to_term (c : Corpus) (query : List Char)
    (method : List Char) (usePagerank : Bool) (cache : List (List Char × ℝ))
    (h1 : method.map pyLower ≠ "term".toList) (h2 : method.map pyLower ≠ "document".toList) :
    search c query method usePagerank cache = searchTermAtATime c query usePagerank cache := by
  unfold search
  rw [if_neg h1, if_neg h2]

/-- Witness for C10 at the method name `"foo"` on a tiny corpus. -/
theorem c10_unknown_method_falls_back_to_term_witness :
    search ⟨[(1, "data".toList)], fun _ => [], []⟩ "data".toList "Foo".toList true []
      = searchTermAtATime ⟨[(1, "data".toList)], fun _ => [], []⟩ "data".toList true [] :=
  c10_unknown_method_falls_back_to_term ⟨[(1, "data".toList)], fun _ => [], []⟩
    "data".toList "Foo".toList true [] (by decide) (by decide)

theorem calculateIdf_spec (c : Corpus) (cache : List (List Char × ℝ)) (w : List Char)
    (hvalid : validCache c cache) :
    (calculateIdf c cache w).1 = idfValue c w
    ∧ validCache c (calculateIdf c cache w).2
    ∧ (calculateIdf c cache w).2.lookup w = some (idfValue c w) := by
  unfold calculateIdf
  cases hcl : cache.lookup w with
  | some v =>
    have hv : v = idfValue c w := by
      obtain ⟨l₁, l₂, heq, -⟩ := List.lookup_eq_some_iff.mp hcl
      have : (w, v) ∈ cache := by
        rw [heq]
        exact List.mem_append.mpr (Or.inr (List.mem_cons_self _ _))
      exact hvalid _ this
    subst hv
    exact ⟨rfl, hvalid, hcl⟩
  | none =>
    by_cases hz : (c.index w).length = 0
    · rw [if_pos hz]
      refine ⟨by simp [idfValue, hz], ?_, ?_⟩
      · intro p hp
        rcases List.mem_cons.mp hp with h | h
        · subst h
          simp [idfValue, hz]
        · exact hvalid p h
      · simp [idfValue, hz]
    · rw [if_neg hz]
      refine ⟨by simp [idfValue, hz], ?_, ?_⟩
      · intro p hp
        rcases List.mem_cons.mp hp with h | h
        · subst h
          simp [idfValue, hz]
        · exact hvalid p h
      · simp [idfValue, hz]

theorem calculateIdf_hit (c : Corpus) (s : List (List Char × ℝ)) (w : List Char) (v : ℝ)
    (h : s.lookup w = some v) : calculateIdf c s w = (v, s) := by
  unfold calculateIdf
  rw [h]

theorem calculateIdf_cached (c : Corpus) (cache : List (List Char × ℝ)) (w : List Char)
    (hvalid : validCache c cache) :
    calculateIdf c ((calculateIdf c cache w).2) w
      = ((calculateIdf c cache w).1, (calculateIdf c cache w).2) := by
  obtain ⟨h1, -, h3⟩ := calculateIdf_spec c cache w hvalid
  rw [calculateIdf_hit c _ w _ h3, h1]

theorem idfValue_pos_of_df_pos (c : Corpus) (w : List Char)
    (h0 : 0 < (c.index w).length) (hN : (c.index w).length ≤ c.docs.length) :
    0 < idfValue c w := by
  unfold idfValue
  rw [if_neg (by omega)]
  have hratio : (1 : ℝ) ≤ ((c.docs.length : ℝ) + 1) / (((c.index w).length : ℝ) + 1) := by
    rw [le_div_iff₀ (by positivity)]
    have : ((c.index w).length : ℝ) ≤ (c.docs.length : ℝ) := by exact_mod_cast hN
    linarith
  have := Real.log_nonneg hratio
  linarith

theorem termAtATimeScores_eq_spec (c : Corpus) :
    ∀ (qts : List (List Char)) (scores : List (ℕ × ℝ)) (cache : List (List Char × ℝ)),
      validCache c cache →
      (termAtATimeScores c qts scores cache).1 = termAtATimeScoresSpec c qts scores := by
  intro qts
  induction qts with
  | nil => intro scores cache h; rfl
  | cons term rest ih =>
    intro scores cache h
    obtain ⟨h1, h2, -⟩ := calculateIdf_spec c cache term h
    rcases hci : calculateIdf c cache term with ⟨idf, cache'⟩
    rw [hci] at h1 h2
    simp only at h1
    subst h1
    rw [termAtATimeScores, hci, termAtATimeScoresSpec]
    change (if idfValue c term = 0
        then termAtATimeScores c rest scores cache'
        else termAtATimeScores c rest
          (termDocsLoop (docLengths c) (idfValue c term) (c.index term) scores) cache').1 = _
    by_cases hz : idfValue c term = 0
    · rw [if_pos hz, if_pos hz]
      exact ih scores cache' h2
    · rw [if_neg hz, if_neg hz]
      exact ih _ cache' h2

theorem termAtATimeScoresSpec_filter (c : Corpus) :
    ∀ (qts : List (List Char)) (scores : List (ℕ × ℝ)), dfBounded c qts →
      termAtATimeScoresSpec c qts scores
        = termAtATimeScoresSpec c (qts.filter (fun t => !(c.index t).isEmpty)) scores := by
  intro qts
  induction qts with
  | nil => intro scores h; rfl
  | cons term rest ih =>
    intro scores h
    have hrest : dfBounded c rest := fun t ht => h t (List.mem_cons_of_mem term ht)
    rw [List.filter_cons]
    by_cases hz : (c.index term).length = 0
    · have hiz : idfValue c term = 0 := by simp [idfValue, hz]
      have hempty : (c.index term).isEmpty = true := by
        rw [List.isEmpty_iff, ← List.length_eq_zero]
        exact hz
      rw [termAtATimeScoresSpec, if_pos hiz, hempty]
      simp only [Bool.not_true, Bool.false_eq_true, if_false]
      exact ih scores hrest
    · have hiz : ¬ idfValue c term = 0 := by
        have := idfValue_pos_of_df_pos c term (by omega) (h term (List.mem_cons_self term rest))
        linarith
      have hempty : (c.index term).isEmpty = false := by
        rw [List.isEmpty_eq_false_iff_exists_mem]
        rcases hl : c.index term with _ | ⟨p, t⟩
        · rw [hl] at hz; simp at hz
        · exact ⟨p, List.mem_cons_self p t⟩
      rw [termAtATimeScoresSpec, if_neg hiz, hempty]
      simp only [Bool.not_false, if_true]
      rw [termAtATimeScoresSpec, if_neg hiz]
      exact ih _ hrest

theorem buildTermIdf_lookup (c : Corpus) :
    ∀ (qts : List (List Char)) (cache : List (List Char × ℝ)), validCache c cache →
      ∀ t ∈ qts, ((buildTermIdf c qts cache).1).lookup t = some (idfValue c t) := by
  intro qts
  induction qts with
  | nil => intro cache h t ht; cases ht
  | cons term rest ih =>
    intro cache h t ht
    obtain ⟨h1, h2, -⟩ := calculateIdf_spec c cache term h
    rcases hci : calculateIdf c cache term with ⟨idf, cache'⟩
    rw [hci] at h1 h2
    simp only at h1
    subst h1
    rw [buildTermIdf, hci]
    change List.lookup t ((term, idfValue c term) :: (buildTermIdf c rest cache').1)
      = some (idfValue c t)
    by_cases hteq : t = term
    · subst hteq
      simp [List.lookup_cons_self]
    · have hbeq : (t == term) = false := by simpa using hteq
      rw [List.lookup_cons]
      simp only [hbeq]
      exact ih cache' h2 t (by
        rcases List.mem_cons.mp ht with hcon | hcon
        · exact absurd hcon hteq
        · exact hcon)

theorem docScore_eq_spec (c : Corpus) (tokens : List (List Char)) (total : ℕ) :
    ∀ (qts : List (List Char)) (termIdf : List (List Char × ℝ)),
      (∀ t ∈ qts, (termIdf.lookup t).getD 0 = idfValue c t) →
      docScore tokens total termIdf qts = docScoreSpec c tokens total qts := by
  have haux : ∀ (qts : List (List Char)) (termIdf : List (List Char × ℝ)) (acc : ℝ),
      (∀ t ∈ qts, (termIdf.lookup t).getD 0 = idfValue c t) →
      qts.foldl (fun acc term =>
        if (termIdf.lookup term).getD 0 = 0 then acc
        else if 0 < tokens.count term then
          acc + calculateTf (tokens.count term : ℤ) total * (termIdf.lookup term).getD 0
        else acc) acc
      = qts.foldl (fun acc term =>
        if idfValue c term = 0 then acc
        else if 0 < tokens.count term then
          acc + calculateTf (tokens.count term : ℤ) total * idfValue c term
        else acc) acc := by
    intro qts
    induction qts with
    | nil => intro termIdf acc h; rfl
    | cons term rest ih =>
      intro termIdf acc h
      rw [List.foldl_cons, List.foldl_cons, h term (List.mem_cons_self term rest),
        ih termIdf _ (fun t ht => h t (List.mem_cons_of_mem term ht))]
  intro qts termIdf h
  exact haux qts termIdf 0 h

theorem docScoreSpec_filter (c : Corpus) (tokens : List (List Char)) (total : ℕ) :
    ∀ (qts : List (List Char)), dfBounded c qts →
      docScoreSpec c tokens total qts
        = docScoreSpec c tokens total (qts.filter (fun t => !(c.index t).isEmpty)) := by
  have haux : ∀ (qts : List (List Char)) (acc : ℝ), dfBounded c qts →
      qts.foldl (fun acc term =>
        if idfValue c term = 0 then acc
        else if 0 < tokens.count term then
          acc + calculateTf (tokens.count term : ℤ) total * idfValue c term
        else acc) acc
      = (qts.filter (fun t => !(c.index t).isEmpty)).foldl (fun acc term =>
        if idfValue c term = 0 then acc
        else if 0 < tokens.count term then
          acc + calculateTf (tokens.count term : ℤ) total * idfValue c term
        else acc) acc := by
    intro qts
    induction qts with
    | nil => intro acc h; rfl
    | cons term rest ih =>
      intro acc h
      have hrest : dfBounded c rest := fun t ht => h t (List.mem_cons_of_mem term ht)
      rw [List.filter_cons]
      by_cases hz : (c.index term).length = 0
      · have hiz : idfValue c term = 0 := by simp [idfValue, hz]
        have hempty : (c.index term).isEmpty = true := by
          rw [List.isEmpty_iff, ← List.length_eq_zero]
          exact hz
        rw [hempty]
        simp only [Bool.not_true, Bool.false_eq_true, if_false]
        rw [List.foldl_cons, if_pos hiz]
        exact ih acc hrest
      · have hiz : ¬ idfValue c term = 0 := by
          have := idfValue_pos_of_df_pos c term (by omega)
            (h term (List.mem_cons_self term rest))
          linarith
        have hempty : (c.index term).isEmpty = false := by
          rw [List.isEmpty_eq_false_iff_exists_mem]
          rcases hl : c.index term with _ | ⟨p, t⟩
          · rw [hl] at hz; simp at hz
          · exact ⟨p, List.mem_cons_self p t⟩
        rw [hempty]
        simp only [Bool.not_false, if_true]
        rw [List.foldl_cons, List.foldl_cons, if_neg hiz]
        exact ih _ hrest
  intro qts h
  exact haux qts 0 h

/-- C7: for every query term the engine computes
`idf = ln((N + 1)/(df + 1)) + 1` when `df > 0`; the value is cached per
term for the lifetime of the engine instance (the cache stays valid, the
term maps to its value after the call, and a repeated call returns the
same value without changing the cache); and a term with `df = 0`
contributes nothing to any document's score under either evaluation
strategy (dropping all zero-df terms from the query leaves both
strategies' score computations unchanged, for any storage-consistent
corpus where `df ≤ N`). -/
theorem c7_idf_formula_cached_and_zero_df (c : Corpus) (cache : List (List Char × ℝ))
    (w : List Char) (hvalid : validCache c cache) :
    (0 < (c.index w).length →
      (calculateIdf c cache w).1
        = Real.log (((c.docs.length : ℝ) + 1) / (((c.index w).length : ℝ) + 1)) + 1)
    ∧ validCache c (calculateIdf c cache w).2
    ∧ (calculateIdf c cache w).2.lookup w = some ((calculateIdf c cache w).1)
    ∧ calculateIdf c ((calculateIdf c cache w).2) w
        = ((calculateIdf c cache w).1, (calculateIdf c cache w).2)
    ∧ (∀ (qts : List (List Char)) (scores : List (ℕ × ℝ)), dfBounded c qts →
        (termAtATimeScores c qts scores cache).1
          = (termAtATimeScores c (qts.filter (fun t => !(c.index t).isEmpty)) scores cache).1)
    ∧ (∀ (qts tokens : List (List Char)) (total : ℕ), dfBounded c qts →
        docScore tokens total (buildTermIdf c qts cache).1 qts
          = docScore tokens total
              (buildTermIdf c (qts.filter (fun t => !(c.index t).isEmpty)) cache).1
              (qts.filter (fun t => !(c.index t).isEmpty))) := by
  obtain ⟨h1, h2, h3⟩ := calculateIdf_spec c cache w hvalid
  refine ⟨?_, h2, ?_, calculateIdf_cached c cache w hvalid, ?_, ?_⟩
  · intro hdf
    rw [h1]
    unfold idfValue
    rw [if_neg (by omega)]
  · rw [h1, h3]
  · intro qts scores hdf
    rw [termAtATimeScores_eq_spec c qts scores cache hvalid,
      termAtATimeScores_eq_spec c _ scores cache hvalid,
      termAtATimeScoresSpec_filter c qts scores hdf]
  · intro qts tokens total hdf
    rw [docScore_eq_spec c tokens total qts _
        (fun t ht => by rw [buildTermIdf_lookup c qts cache hvalid t ht]; rfl),
      docScore_eq_spec c tokens total _ _
        (fun t ht => by rw [buildTermIdf_lookup c _ cache hvalid t ht]; rfl),
      docScoreSpec_filter c tokens total qts hdf]

/-- Witness for C7 on the one-document corpus whose only indexed term is
`"data"` (so `N = 1`, `df = 1`), with an empty cache. -/
theorem c7_idf_formula_cached_and_zero_df_witness :
    (0 < ((fun t => if t = "data".toList then [((1 : ℕ), (1 : ℝ))] else []) "data".toList).length →
      (calculateIdf ⟨[(1, "data".toList)], fun t => if t = "data".toList then [(1, 1)] else [], []⟩
          [] "data".toList).1
        = Real.log ((((([((1 : ℕ), "data".toList)] : List (ℕ × List Char)).length : ℝ)) + 1)
            / ((((fun t => if t = "data".toList then [((1 : ℕ), (1 : ℝ))] else [])
                "data".toList).length : ℝ) + 1)) + 1)
    ∧ validCache
        ⟨[(1, "data".toList)], fun t => if t = "data".toList then [(1, 1)] else [], []⟩
        (calculateIdf
          ⟨[(1, "data".toList)], fun t => if t = "data".toList then [(1, 1)] else [], []⟩
          [] "data".toList).2
    ∧ (calculateIdf ⟨[(1, "data".toList)], fun t => if t = "data".toList then [(1, 1)] else [], []⟩
          [] "data".toList).2.lookup "data".toList
        = some ((calculateIdf
            ⟨[(1, "data".toList)], fun t => if t = "data".toList then [(1, 1)] else [], []⟩
            [] "data".toList).1)
    ∧ calculateIdf ⟨[(1, "data".toList)], fun t => if t = "data".toList then [(1, 1)] else [], []⟩
        ((calculateIdf
          ⟨[(1, "data".toList)], fun t => if t = "data".toList then [(1, 1)] else [], []⟩
          [] "data".toList).2) "data".toList
        = ((calculateIdf
            ⟨[(1, "data".toList)], fun t => if t = "data".toList then [(1, 1)] else [], []⟩
            [] "data".toList).1,
          (calculateIdf
            ⟨[(1, "data".toList)], fun t => if t = "data".toList then [(1, 1)] else [], []⟩
            [] "data".toList).2)
    ∧ (∀ (qts : List (List Char)) (scores : List (ℕ × ℝ)),
        dfBounded ⟨[(1, "data".toList)], fun t => if t = "data".toList then [(1, 1)] else [], []⟩
          qts →
        (termAtATimeScores
            ⟨[(1, "data".toList)], fun t => if t = "data".toList then [(1, 1)] else [], []⟩
            qts scores []).1
          = (termAtATimeScores
              ⟨[(1, "data".toList)], fun t => if t = "data".toList then [(1, 1)] else [], []⟩
              (qts.filter (fun t =>
                !(((fun t => if t = "data".toList then [((1 : ℕ), (1 : ℝ))] else []) t).isEmpty)))
              scores []).1)
    ∧ (∀ (qts tokens : List (List Char)) (total : ℕ),
        dfBounded ⟨[(1, "data".toList)], fun t => if t = "data".toList then [(1, 1)] else [], []⟩
          qts →
        docScore tokens total
            (buildTermIdf
              ⟨[(1, "data".toList)], fun t => if t = "data".toList then [(1, 1)] else [], []⟩
              qts []).1 qts
          = docScore tokens total
              (buildTermIdf
                ⟨[(1, "data".toList)], fun t => if t = "data".toList then [(1, 1)] else [], []⟩
                (qts.filter (fun t =>
                  !(((fun t => if t = "data".toList then [((1 : ℕ), (1 : ℝ))] else []) t).isEmpty)))
                []).1
              (qts.filter (fun t =>
                !(((fun t => if t = "data".toList then [((1 : ℕ), (1 : ℝ))] else []) t).isEmpty)))) :=
  c7_idf_formula_cached_and_zero_df
    ⟨[(1, "data".toList)], fun t => if t = "data".toList then [(1, 1)] else [], []⟩
    [] "data".toList (fun p hp => absurd hp (List.not_mem_nil p))

/-- C2: the two evaluation strategies do not assign the same score.  On
`corpusQF` with query `"quick"` and `use_pagerank = False`,
term-at-a-time reconstructs the count as `int(raw_tf * doc_length)
 = int(1 * 2) = 2` (the stored `tf` is already the absolute count), so it
scores `(2/2) * idf = 1`, while document-at-a-time computes
`(count/total) * idf = (1/2) * idf = 1/2` — the returned (document,
score) pairs differ. -/
theorem c2_strategies_disagree :
    ((searchTermAtATime corpusQF "quick".toList false []).1.map (fun p => (p.1, p.2.1))
      = [(1, (1 : ℝ))])
    ∧ ((searchDocAtATime corpusQF "quick".toList false []).1.map (fun p => (p.1, p.2.1))
      = [(1, (1/2 : ℝ))])
    ∧ ((searchTermAtATime corpusQF "quick".toList false []).1.map (fun p => (p.1, p.2.1))
      ≠ (searchDocAtATime corpusQF "quick".toList false []).1.map (fun p => (p.1, p.2.1))) := by
  have hqts : tokenize "quick".toList stopWords = ["quick".toList] := by decide
  have htok : tokenize "quick fox".toList stopWords = ["quick".toList, "fox".toList] := by
    decide
  have hidf : calculateIdf corpusQF [] "quick".toList
      = (1, [("quick".toList, 1)]) := by
    unfold calculateIdf corpusQF
    norm_num [List.lookup, Real.log_one]
  have hdl : docLengths corpusQF = [(1, 2)] := by
    decide
  have hloop : termDocsLoop (docLengths corpusQF) 1 (corpusQF.index "quick".toList) []
      = [(1, 1)] := by
    rw [hdl]
    unfold corpusQF
    simp only [if_pos rfl]
    unfold termDocsLoop
    norm_num [List.lookup, bumpScore, calculateTf, pyTrunc]
  have hscores : termAtATimeScores corpusQF ["quick".toList] [] []
      = ([(1, 1)], [("quick".toList, 1)]) := by
    rw [termAtATimeScores, hidf]
    change (if (1 : ℝ) = 0 then _ else _) = _
    rw [if_neg (by norm_num)]
    rw [termAtATimeScores]
    rw [show (corpusQF.index "quick".toList) = [(1, 1)] from by unfold corpusQF; simp]
    rw [show termDocsLoop (docLengths corpusQF) 1 [((1 : ℕ), (1 : ℝ))] [] = [(1, 1)] from by
      rw [show [((1 : ℕ), (1 : ℝ))] = corpusQF.index "quick".toList from by
        unfold corpusQF; simp]
      exact hloop]
  have hterm : (searchTermAtATime corpusQF "quick".toList false []).1
      = [(1, 1, generateSnippet "quick fox".toList ["quick".toList] 150)] := by
    unfold searchTermAtATime
    rw [if_neg (by rw [hqts]; simp), hqts, hscores]
    simp only [Bool.false_and, Bool.false_eq_true, if_false]
    rw [sortScoresDesc, List.mergeSort_singleton]
    unfold formatResults corpusQF
    simp [List.find?]
  have hbt : buildTermIdf corpusQF ["quick".toList] []
      = ([("quick".toList, 1)], [("quick".toList, 1)]) := by
    simp only [buildTermIdf, hidf]
  have hds : docScore [['q', 'u', 'i', 'c', 'k'], ['f', 'o', 'x']] 2
      [(['q', 'u', 'i', 'c', 'k'], (1 : ℝ))] [['q', 'u', 'i', 'c', 'k']] = 1/2 := by
    unfold docScore
    simp only [List.foldl_cons, List.foldl_nil, List.lookup_cons_self, Option.getD_some]
    rw [if_neg (by norm_num),
      show (List.count ['q', 'u', 'i', 'c', 'k']
        [['q', 'u', 'i', 'c', 'k'], ['f', 'o', 'x']]) = 1 from by decide,
      if_pos (by norm_num)]
    norm_num [calculateTf]
  have hdocscores : docAtATimeScores corpusQF ["quick".toList] [("quick".toList, 1)]
      = [(1, 1/2)] := by
    unfold docAtATimeScores corpusQF
    simp only [List.foldl_cons, List.foldl_nil]
    rw [if_neg (by decide), htok]
    simp only [List.length_cons, List.length_nil]
    rw [if_neg (by norm_num)]
    norm_num [hds]
  have hdoc : (searchDocAtATime corpusQF "quick".toList false []).1
      = [(1, 1/2, generateSnippet "quick fox".toList ["quick".toList] 150)] := by
    unfold searchDocAtATime
    rw [if_neg (by rw [hqts]; simp), hqts, hbt]
    simp only
    rw [hdocscores]
    simp only [Bool.false_and, Bool.false_eq_true, if_false]
    rw [sortScoresDesc, List.mergeSort_singleton]
    unfold formatResults corpusQF
    simp [List.find?]
  refine ⟨?_, ?_, ?_⟩
  · rw [hterm]
    simp
  · rw [hdoc]
    simp
  · rw [hterm, hdoc]
    simp only [List.map_cons, List.map_nil, ne_eq, List.cons.injEq, Prod.mk.injEq]
    intro h
    have := h.1.2
    norm_num at this

end BigData
